import Mathlib

set_option linter.unusedVariables false

/-!
Shallow embedding of the shared-slab subsystem of the repository:
`src/lib/vfs/src/mem_fs/shared_slab/ropes_abuf.rs` (`Chunked`, `Ropes`) and
`src/lib/vfs/src/mem_fs/shared_slab/mod.rs` (`SharedSlab`).

Machine integers are modelled as `Nat` with explicit `% 2 ^ 32` where the
source performs `u32` arithmetic or casts.  The shared byte buffer is a
function from byte addresses to byte values; reads reduce mod 256,
mirroring the `u8` typing of the underlying `ArrayBuffer`.  Code that can
panic or throw a JavaScript exception (`DataView` range errors, `assert!`,
`Option::unwrap`, `Result::unwrap`) is modelled with `Option`, `none`
standing for abnormal termination.
-/

/-- Fixed-size-chunk view of a byte buffer (`Chunked` in `ropes_abuf.rs`). -/
structure Chunked where
  mem : Nat → Nat
  byteLength : Nat
  chunkSize : Nat

/-- Byte value stored at address `a` (bytes of the buffer are `u8`). -/
def Chunked.byteAt (c : Chunked) (a : Nat) : Nat := c.mem a % 256

/-- Big-endian 32-bit read at byte address `a`, as `DataView.getUint32`. -/
def Chunked.be32 (c : Chunked) (a : Nat) : Nat :=
  c.byteAt a * 2 ^ 24 + c.byteAt (a + 1) * 2 ^ 16 + c.byteAt (a + 2) * 2 ^ 8 + c.byteAt (a + 3)

/-- Byte address of `(chunk, offset)` (`Chunked::address`). -/
def Chunked.address (c : Chunked) (chunk offset : Nat) : Nat := chunk * c.chunkSize + offset

/-- `Chunked::read_u32`.  `DataView.getUint32` throws a `RangeError` when the
read crosses the end of the buffer; that abnormal exit is `none`. -/
def Chunked.read_u32 (c : Chunked) (chunk index : Nat) : Option Nat :=
  let a := c.address chunk (4 * index)
  if a + 4 ≤ c.byteLength then some (c.be32 a) else none

/-- Big-endian byte decomposition of a `u32` value (wrapping mod `2 ^ 32`,
as `DataView.setUint32` does). -/
def u32bytes (v : Nat) : List Nat :=
  [v % 2 ^ 32 / 2 ^ 24, v % 2 ^ 32 / 2 ^ 16 % 256, v % 2 ^ 32 / 2 ^ 8 % 256, v % 2 ^ 32 % 256]

/-- Store the byte list `bs` at addresses `a, a + 1, ...` of `m`. -/
def storeBytes (m : Nat → Nat) (a : Nat) (bs : List Nat) : Nat → Nat :=
  fun x => if a ≤ x ∧ x < a + bs.length then bs.getD (x - a) 0 else m x

/-- `Chunked::write_u32`. -/
def Chunked.write_u32 (c : Chunked) (chunk index val : Nat) : Option Chunked :=
  let a := c.address chunk (4 * index)
  if a + 4 ≤ c.byteLength then
    some { c with mem := storeBytes c.mem a (u32bytes val) }
  else none

/-- `Chunked::write_bytes`: writes at most `chunk_size - byte_offset` bytes,
returning the number written.  The leading bounds test is the source's
`assert!(byte_offset < self.chunk_size)`; the second is the `Uint8Array`
constructor's range check. -/
def Chunked.write_bytes (c : Chunked) (chunk byte_offset : Nat) (data : List Nat) :
    Option (Chunked × Nat) :=
  if byte_offset < c.chunkSize then
    let n := min data.length (c.chunkSize - byte_offset)
    let a := c.address chunk byte_offset
    if a + n ≤ c.byteLength then
      some ({ c with mem := storeBytes c.mem a (data.take n) }, n)
    else none
  else none

/-- `Chunked::read_bytes_into`: the destination slice is represented by its
length; the bytes read are returned together with their count. -/
def Chunked.read_bytes_into (c : Chunked) (chunk byte_offset out_len : Nat) :
    Option (List Nat × Nat) :=
  if byte_offset < c.chunkSize then
    let n := min out_len (c.chunkSize - byte_offset)
    let a := c.address chunk byte_offset
    if a + n ≤ c.byteLength then
      some ((List.range n).map (fun i => c.byteAt (a + i)), n)
    else none
  else none

/-- Rope store over a chunked buffer (`Ropes` in `ropes_abuf.rs`). -/
structure Ropes where
  storage : Chunked
  next_free : Nat

/-- `Ropes::new`: the free cursor starts at 1. -/
def Ropes.new (storage : Chunked) : Ropes := ⟨storage, 1⟩

/-- `Ropes::contains_key`: word 0 of the chunk is non-zero. -/
def Ropes.contains_key (r : Ropes) (key : Nat) : Option Bool :=
  (r.storage.read_u32 key 0).map (fun v => v != 0)

/-- Scan loop of `Ropes::alloc_peek` (`while self.contains_key(self.next_free)`).
The fuel argument only bounds the iteration count; `byteLength + 1` is enough
for any positive chunk size because the scan aborts once the word read walks
off the end of the buffer. -/
def allocScanGo (c : Chunked) : Nat → Nat → Option Nat
  | 0, _ => none
  | fuel + 1, nf =>
    match c.read_u32 nf 0 with
    | none => none
    | some v => if v = 0 then some nf else allocScanGo c fuel (nf + 1)

/-- `Ropes::alloc_peek`: advances `next_free` to the first vacant chunk and
returns it. -/
def Ropes.alloc_peek (r : Ropes) : Option (Ropes × Nat) :=
  (allocScanGo r.storage (r.storage.byteLength + 1) r.next_free).map
    (fun k => ({ r with next_free := k }, k))

/-- `Ropes::alloc`: `alloc_peek` followed by `next_free += 1`. -/
def Ropes.alloc (r : Ropes) : Option (Ropes × Nat) :=
  r.alloc_peek.map (fun p => ({ p.1 with next_free := p.2 + 1 }, p.2))

/-- Lift `Chunked.write_u32` to `Ropes`. -/
def Ropes.writeU32 (r : Ropes) (chunk index val : Nat) : Option Ropes :=
  (r.storage.write_u32 chunk index val).map (fun st => { r with storage := st })

/-- Loop body of `Ropes::insert_cont` (the `while len > 0` loop).  Fresh
continuation chunks come from `self.alloc() as u32`, hence the `% 2 ^ 32`. -/
def Ropes.insertContGo : Nat → Ropes → Nat → List Nat → Option Ropes
  | 0, r, _, data => if data.length = 0 then some r else none
  | fuel + 1, r, cur, data =>
    if data.length = 0 then some r else
      match r.storage.read_u32 cur 0 with
      | none => none
      | some nxt_ =>
        match r.storage.write_bytes cur (4 * 1) data with
        | none => none
        | some (st, wr_len) =>
          let r1 : Ropes := { r with storage := st }
          let rest := data.drop wr_len
          if 0 < rest.length then
            match (if nxt_ > 1 then some (r1, nxt_)
                   else r1.alloc.map (fun p => (p.1, p.2 % 2 ^ 32))) with
            | none => none
            | some (r2, nxt) =>
              match (if nxt ≠ nxt_ then r2.writeU32 cur 0 nxt else some r2) with
              | none => none
              | some r3 => Ropes.insertContGo fuel r3 nxt rest
          else
            match (if 1 ≠ nxt_ then r1.writeU32 cur 0 1 else some r1) with
            | none => none
            | some r2 => some r2

/-- `Ropes::insert_cont`: reuse chunk `maybe_at` when its index exceeds the
end-of-chain sentinel, otherwise allocate; then run the loop.  One loop
iteration writes at least one byte, so `data.length + 1` fuel is ample. -/
def Ropes.insert_cont (r : Ropes) (maybe_at : Nat) (data : List Nat) : Option (Ropes × Nat) :=
  match (if maybe_at > 1 then some (r, maybe_at) else r.alloc) with
  | none => none
  | some (r1, head) =>
    (Ropes.insertContGo (data.length + 1) r1 head data).map (fun r2 => (r2, head))

/-- `Ropes::insert_at`: bump the version word, record the payload length,
write the head payload, spill the overflow through `insert_cont`, and
rewrite the next pointer when it changed.  The version increment is `u32`
arithmetic, hence `(v + 1) % 2 ^ 32`; the continuation head is cast
`as u32` before the comparison with the previous pointer. -/
def Ropes.insert_at (r : Ropes) (key : Nat) (data : List Nat) : Option (Ropes × Nat) :=
  match r.storage.read_u32 key 0 with
  | none => none
  | some v =>
    let ver := (v + 1) % 2 ^ 32
    match r.storage.write_u32 key 0 ver with
    | none => none
    | some st1 =>
      match st1.write_u32 key 1 data.length with
      | none => none
      | some st2 =>
        match st2.read_u32 key 2 with
        | none => none
        | some nxt_ =>
          match st2.write_bytes key (4 * 3) data with
          | none => none
          | some (st3, wr_len) =>
            let r1 : Ropes := { r with storage := st3 }
            match (if wr_len < data.length then
                     (r1.insert_cont nxt_ (data.drop wr_len)).map
                       (fun p => (p.1, p.2 % 2 ^ 32))
                   else some (r1, 0)) with
            | none => none
            | some (r2, nxt) =>
              match (if nxt ≠ nxt_ then r2.writeU32 key 2 nxt else some r2) with
              | none => none
              | some r3 => some (r3, ver)

/-- `Ropes::ver_peek`: word 0 of the head chunk. -/
def Ropes.ver_peek (r : Ropes) (key : Nat) : Option Nat := r.storage.read_u32 key 0

/-- Loop of `Ropes::get` (`while len > 0`), assembling payload bytes along
the chain.  Fuel bounds the iteration count; `len + 1` is ample since each
successful read consumes at least one byte. -/
def Ropes.getGo (c : Chunked) : Nat → Nat → Nat → Nat → Nat → Option (List Nat)
  | 0, _, _, _, len => if len = 0 then some [] else none
  | fuel + 1, cur, offset_data, index_nxt, len =>
    if len = 0 then some [] else
      match c.read_bytes_into cur offset_data len with
      | none => none
      | some (bs, rd_cnt) =>
        if 0 < len - rd_cnt then
          match c.read_u32 cur index_nxt with
          | none => none
          | some cur2 =>
            (Ropes.getGo c fuel cur2 (4 * 1) 0 (len - rd_cnt)).map (fun rest => bs ++ rest)
        else some bs

/-- `Ropes::get`: read the recorded length from word 1 and traverse. -/
def Ropes.get (r : Ropes) (key : Nat) : Option (List Nat) :=
  match r.storage.read_u32 key 1 with
  | none => none
  | some len => Ropes.getGo r.storage (len + 1) key (4 * 3) 2 len

/-- Modelled from the spec: `Ropes::remove` is called from
`SharedSlab::remove` (`mod.rs` line 147) but its definition is not among the
provided sources.  The spec (section 4.2) says: `remove(key)`: sets word 0
at `key` to zero. -/
def Ropes.remove (r : Ropes) (key : Nat) : Option Ropes :=
  (r.storage.write_u32 key 0 0).map (fun st => { r with storage := st })

/-- Error kinds of the vfs crate used by the shared slab. -/
inductive FsError where
  | InvalidData
  | IOError
deriving DecidableEq

/-- Cached slab entry (`VEntry` in `mod.rs`). -/
structure VEntry (α : Type) where
  ver : Nat
  val : α

/-- Explicit byte codec standing for the `serde_cbor` instance of `T`
(`to_vec` can fail with `IOError`, `from_slice` with `InvalidData`). -/
structure Codec (α : Type) where
  enc : α → Option (List Nat)
  dec : List Nat → Option α

/-- Typed, cached view of the rope store (`SharedSlab` in `mod.rs`). -/
structure SharedSlab (α : Type) where
  cache : Nat → Option (VEntry α)
  ropes : Option Ropes
  next_key : Nat

/-- `SharedSlab::new`. -/
def SharedSlab.new (α : Type) : SharedSlab α := ⟨fun _ => none, none, 0⟩

/-- `SharedSlab::same_ver`. -/
def SharedSlab.same_ver {α : Type} (e : Option (VEntry α)) (ver : Nat) : Bool :=
  match e with
  | some e => e.ver == ver
  | none => false

/-- Insertion into the cache `HashMap`. -/
def cacheInsert {α : Type} (cache : Nat → Option (VEntry α)) (key : Nat) (e : VEntry α) :
    Nat → Option (VEntry α) :=
  fun k => if k = key then some e else cache k

/-- Removal from the cache `HashMap`. -/
def cacheRemove {α : Type} (cache : Nat → Option (VEntry α)) (key : Nat) :
    Nat → Option (VEntry α) :=
  fun k => if k = key then none else cache k

/-- `SharedSlab::pull`: the cache-coherence read path.  The outer `Option`
is abnormal termination inside rope reads; the `Except` layer is the
function's own `Result`. -/
def SharedSlab.pull {α : Type} (cd : Codec α) (s : SharedSlab α) (key : Nat) :
    Option (Except FsError (SharedSlab α × Option α)) :=
  match s.ropes with
  | none => some (.ok (s, (s.cache key).map VEntry.val))
  | some r =>
    match r.ver_peek key with
    | none => none
    | some ver =>
      if SharedSlab.same_ver (s.cache key) ver then
        some (.ok (s, (s.cache key).map VEntry.val))
      else
        match r.get key with
        | none => none
        | some data =>
          match cd.dec data with
          | none => some (.error .InvalidData)
          | some val =>
            let s2 : SharedSlab α := { s with cache := cacheInsert s.cache key ⟨ver, val⟩ }
            some (.ok (s2, (s2.cache key).map VEntry.val))

/-- `SharedSlab::get`: `self.pull(key).unwrap()`, so a `pull` error is a
panic (`none`), not a propagated error. -/
def SharedSlab.get {α : Type} (cd : Codec α) (s : SharedSlab α) (key : Nat) :
    Option (SharedSlab α × Option α) :=
  match SharedSlab.pull cd s key with
  | some (.ok p) => some p
  | some (.error _) => none
  | none => none

/-- `SharedSlab::get_mut`: same read path as `get`. -/
def SharedSlab.get_mut {α : Type} (cd : Codec α) (s : SharedSlab α) (key : Nat) :
    Option (SharedSlab α × Option α) :=
  match SharedSlab.pull cd s key with
  | some (.ok p) => some p
  | some (.error _) => none
  | none => none

/-- `SharedSlab::push`: serialize, then insert into the rope (version 0 and
no buffer traffic when detached). -/
def SharedSlab.push {α : Type} (cd : Codec α) (s : SharedSlab α) (key : Nat) (val : α) :
    Option (Except FsError (SharedSlab α × Nat)) :=
  match cd.enc val with
  | none => some (.error .IOError)
  | some bytes =>
    match s.ropes with
    | some r =>
      match r.insert_at key bytes with
      | none => none
      | some (r2, ver) => some (.ok ({ s with ropes := some r2 }, ver))
    | none => some (.ok (s, 0))

/-- `SharedSlab::flush_mut`: `push` the cached value and store the returned
version; the cache lookup and the push result are both `unwrap`ped. -/
def SharedSlab.flush_mut {α : Type} (cd : Codec α) (s : SharedSlab α) (key : Nat) :
    Option (SharedSlab α) :=
  match s.cache key with
  | none => none
  | some e =>
    match SharedSlab.push cd s key e.val with
    | some (.ok (s2, ver)) => some { s2 with cache := cacheInsert s2.cache key ⟨ver, e.val⟩ }
    | some (.error _) => none
    | none => none

/-- `SharedSlab::attach`: install a rope store with chunk size 1024 over the
buffer; when the root version is zero, push the cached root value
(`self._cache().get(&0).unwrap()` panics when the cache has no root). -/
def SharedSlab.attach {α : Type} (cd : Codec α) (s : SharedSlab α) (mem : Nat → Nat)
    (byte_len : Nat) : Option (Except FsError (SharedSlab α)) :=
  let r := Ropes.new ⟨mem, byte_len, 1024⟩
  match r.ver_peek 0 with
  | none => none
  | some v =>
    let s1 : SharedSlab α := { s with ropes := some r }
    if v = 0 then
      match s1.cache 0 with
      | none => none
      | some e =>
        match SharedSlab.push cd s1 0 e.val with
        | some (.ok (s2, _)) => some (.ok s2)
        | some (.error er) => some (.error er)
        | none => none
    else some (.ok s1)

/-- `SharedSlab::alloc`: rope allocation when attached, the internal counter
when detached; `next_key` becomes `key + 1` in both cases. -/
def SharedSlab.alloc {α : Type} (s : SharedSlab α) : Option (SharedSlab α × Nat) :=
  match s.ropes with
  | some r =>
    match r.alloc with
    | none => none
    | some (r2, key) => some ({ s with ropes := some r2, next_key := key + 1 }, key)
  | none => some ({ s with next_key := s.next_key + 1 }, s.next_key)

/-- `SharedSlab::insert`: allocate a key, cache the value with version 0,
flush immediately. -/
def SharedSlab.insert {α : Type} (cd : Codec α) (s : SharedSlab α) (val : α) :
    Option (SharedSlab α × Nat) :=
  match s.alloc with
  | none => none
  | some (s1, key) =>
    let s2 : SharedSlab α := { s1 with cache := cacheInsert s1.cache key ⟨0, val⟩ }
    match SharedSlab.flush_mut cd s2 key with
    | none => none
    | some s3 => some (s3, key)

/-- `SharedSlab::remove`: `self._ropes().unwrap().remove(key)` (panics when
detached), then return the cached value (`unwrap` panics when absent). -/
def SharedSlab.remove {α : Type} (s : SharedSlab α) (key : Nat) :
    Option (SharedSlab α × α) :=
  match s.ropes with
  | none => none
  | some r =>
    match r.remove key with
    | none => none
    | some r2 =>
      match s.cache key with
      | none => none
      | some e => some ({ s with ropes := some r2, cache := cacheRemove s.cache key }, e.val)

/-! Basic lemmas about the byte-level primitives. -/

theorem storeBytes_lt {m : Nat → Nat} {a : Nat} {bs : List Nat} {x : Nat} (h : x < a) :
    storeBytes m a bs x = m x := by
  simp only [storeBytes]
  rw [if_neg (by omega)]

theorem storeBytes_ge {m : Nat → Nat} {a : Nat} {bs : List Nat} {x : Nat}
    (h : a + bs.length ≤ x) : storeBytes m a bs x = m x := by
  simp only [storeBytes]
  rw [if_neg (by omega)]

theorem storeBytes_get {m : Nat → Nat} {a : Nat} {bs : List Nat} {x : Nat}
    (h1 : a ≤ x) (h2 : x < a + bs.length) : storeBytes m a bs x = bs.getD (x - a) 0 := by
  simp only [storeBytes]
  rw [if_pos ⟨h1, h2⟩]

theorem byteAt_congr {m m' : Nat → Nat} {N C N' C' a : Nat}
    (h : m' a = m a) : Chunked.byteAt ⟨m', N', C'⟩ a = Chunked.byteAt ⟨m, N, C⟩ a := by
  simp only [Chunked.byteAt, h]

theorem be32_congr {m m' : Nat → Nat} {N C N' C' a : Nat}
    (h : ∀ x, a ≤ x → x < a + 4 → m' x = m x) :
    Chunked.be32 ⟨m', N', C'⟩ a = Chunked.be32 ⟨m, N, C⟩ a := by
  simp only [Chunked.be32]
  rw [byteAt_congr (h a (by omega) (by omega)), byteAt_congr (h (a + 1) (by omega) (by omega)),
    byteAt_congr (h (a + 2) (by omega) (by omega)), byteAt_congr (h (a + 3) (by omega) (by omega))]

theorem u32bytes_length (v : Nat) : (u32bytes v).length = 4 := rfl

theorem be32_store {m : Nat → Nat} {N C a v : Nat} :
    Chunked.be32 ⟨storeBytes m a (u32bytes v), N, C⟩ a = v % 2 ^ 32 := by
  have h0 : storeBytes m a (u32bytes v) a = v % 2 ^ 32 / 2 ^ 24 := by
    rw [storeBytes_get (by omega) (by simp [u32bytes])]
    simp [u32bytes]
  have h1 : storeBytes m a (u32bytes v) (a + 1) = v % 2 ^ 32 / 2 ^ 16 % 256 := by
    rw [storeBytes_get (by omega) (by simp [u32bytes])]
    simp [u32bytes, Nat.add_sub_cancel_left]
  have h2 : storeBytes m a (u32bytes v) (a + 2) = v % 2 ^ 32 / 2 ^ 8 % 256 := by
    rw [storeBytes_get (by omega) (by simp [u32bytes])]
    simp [u32bytes, Nat.add_sub_cancel_left]
  have h3 : storeBytes m a (u32bytes v) (a + 3) = v % 2 ^ 32 % 256 := by
    rw [storeBytes_get (by omega) (by simp [u32bytes])]
    simp [u32bytes, Nat.add_sub_cancel_left]
  have hv : v % 2 ^ 32 < 2 ^ 32 := Nat.mod_lt _ (by norm_num)
  simp only [Chunked.be32, Chunked.byteAt, h0, h1, h2, h3]
  omega

theorem read_u32_some {m : Nat → Nat} {N C chunk index : Nat}
    (h : chunk * C + 4 * index + 4 ≤ N) :
    Chunked.read_u32 ⟨m, N, C⟩ chunk index =
      some (Chunked.be32 ⟨m, N, C⟩ (chunk * C + 4 * index)) := by
  simp only [Chunked.read_u32, Chunked.address]
  rw [if_pos h]

theorem write_u32_some {m : Nat → Nat} {N C chunk index val : Nat}
    (h : chunk * C + 4 * index + 4 ≤ N) :
    Chunked.write_u32 ⟨m, N, C⟩ chunk index val =
      some ⟨storeBytes m (chunk * C + 4 * index) (u32bytes val), N, C⟩ := by
  simp only [Chunked.write_u32, Chunked.address]
  rw [if_pos h]

theorem write_bytes_some {m : Nat → Nat} {N C chunk off : Nat} {data : List Nat}
    (h1 : off < C) (h2 : chunk * C + off + min data.length (C - off) ≤ N) :
    Chunked.write_bytes ⟨m, N, C⟩ chunk off data =
      some (⟨storeBytes m (chunk * C + off) (data.take (min data.length (C - off))), N, C⟩,
        min data.length (C - off)) := by
  simp only [Chunked.write_bytes, Chunked.address]
  rw [if_pos h1, if_pos h2]

theorem read_bytes_into_some {m : Nat → Nat} {N C chunk off out_len : Nat}
    (h1 : off < C) (h2 : chunk * C + off + min out_len (C - off) ≤ N) :
    Chunked.read_bytes_into ⟨m, N, C⟩ chunk off out_len =
      some ((List.range (min out_len (C - off))).map
          (fun i => Chunked.byteAt ⟨m, N, C⟩ (chunk * C + off + i)),
        min out_len (C - off)) := by
  simp only [Chunked.read_bytes_into, Chunked.address]
  rw [if_pos h1, if_pos h2]

theorem storeBytes_readback {m : Nat → Nat} {N C : Nat} (a : Nat) (bs : List Nat)
    (hb : ∀ b ∈ bs, b < 256) :
    (List.range bs.length).map
        (fun i => Chunked.byteAt ⟨storeBytes m a bs, N, C⟩ (a + i)) = bs := by
  apply List.ext_getElem
  · simp
  · intro i h1 h2
    simp only [List.getElem_map, List.getElem_range]
    have hlen : i < bs.length := h2
    simp only [Chunked.byteAt]
    rw [storeBytes_get (by omega) (by omega)]
    have : a + i - a = i := by omega
    rw [this]
    rw [List.getD_eq_getElem bs 0 hlen]
    exact Nat.mod_eq_of_lt (hb _ (List.getElem_mem hlen))

@[simp] theorem Chunked.mk_mem (m : Nat → Nat) (N C : Nat) : (Chunked.mk m N C).mem = m := rfl

@[simp] theorem Chunked.mk_byteLength (m : Nat → Nat) (N C : Nat) :
    (Chunked.mk m N C).byteLength = N := rfl

@[simp] theorem Chunked.mk_chunkSize (m : Nat → Nat) (N C : Nat) :
    (Chunked.mk m N C).chunkSize = C := rfl

/-! Chain layout predicate: the payload `data` is laid out along a linked
chain of chunks starting at `cur`, with payload offset `od` and next-pointer
word `inx` in the first chunk (offsets 4 and 0 in all later ones).  The
parameter `lb` bounds every chunk index of the chain from below, so that
writes strictly below address `lb * chunkSize` cannot disturb the chain. -/

inductive Chain (c : Chunked) (lb : Nat) : Nat → List Nat → Nat → Nat → Prop
  | nil (cur od inx : Nat) : Chain c lb cur [] od inx
  | last (cur od inx : Nat) (data : List Nat) :
      data ≠ [] → lb ≤ cur → od < c.chunkSize →
      data.length ≤ c.chunkSize - od →
      cur * c.chunkSize + od + data.length ≤ c.byteLength →
      (List.range data.length).map (fun i => c.byteAt (cur * c.chunkSize + od + i)) = data →
      Chain c lb cur data od inx
  | cons (cur od inx nxt : Nat) (data : List Nat) :
      lb ≤ cur → od < c.chunkSize →
      c.chunkSize - od < data.length →
      cur * c.chunkSize + od + (c.chunkSize - od) ≤ c.byteLength →
      (List.range (c.chunkSize - od)).map (fun i => c.byteAt (cur * c.chunkSize + od + i)) =
        data.take (c.chunkSize - od) →
      c.read_u32 cur inx = some nxt →
      Chain c lb nxt (data.drop (c.chunkSize - od)) 4 0 →
      Chain c lb cur data od inx

theorem Chain.mono {c : Chunked} {lb lb' cur od inx : Nat} {data : List Nat}
    (hle : lb' ≤ lb) (h : Chain c lb cur data od inx) : Chain c lb' cur data od inx := by
  induction h with
  | nil cur od inx => exact Chain.nil cur od inx
  | last cur od inx data h1 h2 h3 h4 h5 h6 =>
    exact Chain.last cur od inx data h1 (le_trans hle h2) h3 h4 h5 h6
  | cons cur od inx nxt data h1 h2 h3 h4 h5 h6 h7 ih =>
    exact Chain.cons cur od inx nxt data (le_trans hle h1) h2 h3 h4 h5 h6 ih

theorem Chain.congr {m m' : Nat → Nat} {N C lb cur od inx : Nat} {data : List Nat}
    (hag : ∀ a, lb * C ≤ a → m' a = m a)
    (h : Chain ⟨m, N, C⟩ lb cur data od inx) : Chain ⟨m', N, C⟩ lb cur data od inx := by
  induction h with
  | nil cur od inx => exact Chain.nil cur od inx
  | last cur od inx data h1 h2 h3 h4 h5 h6 =>
    simp only [Chunked.mk_chunkSize, Chunked.mk_byteLength] at h3 h4 h5 h6 ⊢
    refine Chain.last cur od inx data h1 h2 h3 h4 h5 ?_
    have hmap : (List.range data.length).map
          (fun i => Chunked.byteAt ⟨m', N, C⟩ (cur * C + od + i)) =
        (List.range data.length).map
          (fun i => Chunked.byteAt ⟨m, N, C⟩ (cur * C + od + i)) := by
      apply List.map_congr_left
      intro i hi
      apply byteAt_congr
      apply hag
      have : lb * C ≤ cur * C := Nat.mul_le_mul_right C h2
      omega
    exact hmap.trans h6
  | cons cur od inx nxt data h1 h2 h3 h4 h5 h6 h7 ih =>
    simp only [Chunked.mk_chunkSize, Chunked.mk_byteLength] at h2 h3 h4 h5 h6 ⊢
    have hcc : lb * C ≤ cur * C := Nat.mul_le_mul_right C h1
    refine Chain.cons cur od inx nxt data h1 h2 h3 h4 ?_ ?_ ih
    · have hmap : (List.range (C - od)).map
            (fun i => Chunked.byteAt ⟨m', N, C⟩ (cur * C + od + i)) =
          (List.range (C - od)).map
            (fun i => Chunked.byteAt ⟨m, N, C⟩ (cur * C + od + i)) := by
        apply List.map_congr_left
        intro i hi
        apply byteAt_congr
        apply hag
        omega
      exact hmap.trans h5
    · simp only [Chunked.read_u32, Chunked.address, Chunked.mk_byteLength,
        Chunked.mk_chunkSize] at h6 ⊢
      by_cases hin : cur * C + 4 * inx + 4 ≤ N
      · rw [if_pos hin] at h6 ⊢
        rw [be32_congr (fun x hx1 hx2 => hag x (by omega))]
        exact h6
      · rw [if_neg hin] at h6
        exact absurd h6 (by simp)

/-- Traversal correctness of the `Ropes::get` loop: a chain layout for
`data` makes the loop return exactly `data`. -/
theorem getGo_spec {m : Nat → Nat} {N C lb : Nat} :
    ∀ (data : List Nat) (cur od inx : Nat), Chain ⟨m, N, C⟩ lb cur data od inx →
      ∀ fuel, data.length ≤ fuel →
        Ropes.getGo ⟨m, N, C⟩ fuel cur od inx data.length = some data := by
  intro data cur od inx h
  induction h with
  | nil cur od inx =>
    intro fuel hf
    cases fuel <;> simp [Ropes.getGo]
  | last cur od inx data h1 h2 h3 h4 h5 h6 =>
    intro fuel hf
    simp only [Chunked.mk_chunkSize, Chunked.mk_byteLength] at h3 h4 h5 h6
    have hlen : 0 < data.length := List.length_pos.mpr h1
    cases fuel with
    | zero => omega
    | succ f =>
      simp only [Ropes.getGo]
      rw [if_neg (by omega)]
      have hmin : min data.length (C - od) = data.length := by omega
      rw [read_bytes_into_some h3 (by rw [hmin]; exact h5)]
      simp only [hmin]
      rw [if_neg (by omega)]
      rw [h6]
  | cons cur od inx nxt data h1 h2 h3 h4 h5 h6 h7 ih =>
    intro fuel hf
    simp only [Chunked.mk_chunkSize, Chunked.mk_byteLength] at h2 h3 h4 h5 h7 ih
    have hC : 0 < C - od := by omega
    have hlen : 0 < data.length := by omega
    cases fuel with
    | zero => omega
    | succ f =>
      simp only [Ropes.getGo]
      rw [if_neg (by omega)]
      have hmin : min data.length (C - od) = C - od := by omega
      rw [read_bytes_into_some h2 (by rw [hmin]; exact h4)]
      simp only [hmin]
      rw [if_pos (by omega)]
      rw [h6]
      have hdl : (data.drop (C - od)).length = data.length - (C - od) := by
        simp [List.length_drop]
      have hrec := ih f (by omega)
      rw [hdl] at hrec
      simp only [show (4 * 1 : Nat) = 4 from rfl, hrec, h5]
      simp [List.take_append_drop]

/-! Allocator lemmas. -/

theorem allocScanGo_some {c : Chunked} :
    ∀ fuel nf k, allocScanGo c fuel nf = some k →
      nf ≤ k ∧ c.read_u32 k 0 = some 0 ∧
        ∀ j, nf ≤ j → j < k → ∃ v, c.read_u32 j 0 = some v ∧ v ≠ 0 := by
  intro fuel
  induction fuel with
  | zero => intro nf k h; simp [allocScanGo] at h
  | succ f ih =>
    intro nf k h
    simp only [allocScanGo] at h
    split at h
    · exact absurd h (by simp)
    · rename_i v hr
      split at h
      · rename_i hv
        have hk : nf = k := Option.some.inj h
        subst hk
        subst hv
        exact ⟨le_refl _, hr, fun j hj1 hj2 => absurd hj2 (by omega)⟩
      · rename_i hv
        obtain ⟨ih1, ih2, ih3⟩ := ih (nf + 1) k h
        refine ⟨by omega, ih2, fun j hj1 hj2 => ?_⟩
        by_cases hj : j = nf
        · subst hj
          exact ⟨v, hr, hv⟩
        · exact ih3 j (by omega) hj2

theorem allocScanGo_none {c : Chunked}
    (hocc : ∀ j v, c.read_u32 j 0 = some v → v ≠ 0) :
    ∀ fuel nf, allocScanGo c fuel nf = none := by
  intro fuel
  induction fuel with
  | zero => intro nf; simp [allocScanGo]
  | succ f ih =>
    intro nf
    simp only [allocScanGo]
    split
    · rfl
    · rename_i v hr
      rw [if_neg (hocc nf v hr)]
      exact ih (nf + 1)

theorem Ropes.alloc_peek_spec {r r' : Ropes} {k : Nat} (h : r.alloc_peek = some (r', k)) :
    r.next_free ≤ k ∧ r.storage.read_u32 k 0 = some 0 ∧
      (∀ j, r.next_free ≤ j → j < k → ∃ v, r.storage.read_u32 j 0 = some v ∧ v ≠ 0) ∧
      r' = ⟨r.storage, k⟩ := by
  simp only [Ropes.alloc_peek] at h
  cases hs : allocScanGo r.storage (r.storage.byteLength + 1) r.next_free with
  | none => rw [hs] at h; exact absurd h (by simp)
  | some k2 =>
    rw [hs] at h
    have h2 : (({ r with next_free := k2 }, k2) : Ropes × Nat) = (r', k) := Option.some.inj h
    have hk : k2 = k := congrArg Prod.snd h2
    subst hk
    have hr2 : r' = { r with next_free := k2 } := (congrArg Prod.fst h2).symm
    obtain ⟨g1, g2, g3⟩ := allocScanGo_some _ _ _ hs
    exact ⟨g1, g2, g3, hr2⟩

@[simp] theorem Ropes.mk_storage (c : Chunked) (nf : Nat) : (Ropes.mk c nf).storage = c := rfl

@[simp] theorem Ropes.mk_next_free (c : Chunked) (nf : Nat) : (Ropes.mk c nf).next_free = nf := rfl

theorem Ropes.alloc_spec {r r' : Ropes} {k : Nat} (h : r.alloc = some (r', k)) :
    r.next_free ≤ k ∧ r.storage.read_u32 k 0 = some 0 ∧
      (∀ j, r.next_free ≤ j → j < k → ∃ v, r.storage.read_u32 j 0 = some v ∧ v ≠ 0) ∧
      r' = ⟨r.storage, k + 1⟩ := by
  simp only [Ropes.alloc] at h
  cases hp : r.alloc_peek with
  | none => rw [hp] at h; exact absurd h (by simp)
  | some p =>
    rw [hp] at h
    have h2 : (({ p.1 with next_free := p.2 + 1 }, p.2) : Ropes × Nat) = (r', k) :=
      Option.some.inj h
    have hk : p.2 = k := congrArg Prod.snd h2
    have hr2 : r' = { p.1 with next_free := p.2 + 1 } := (congrArg Prod.fst h2).symm
    have hp2 : r.alloc_peek = some (p.1, p.2) := hp
    obtain ⟨g1, g2, g3, g4⟩ := Ropes.alloc_peek_spec hp2
    subst hk
    refine ⟨g1, g2, g3, ?_⟩
    rw [hr2, g4]

theorem Ropes.alloc_at_zero {r : Ropes} (h : r.storage.read_u32 r.next_free 0 = some 0) :
    r.alloc = some (⟨r.storage, r.next_free + 1⟩, r.next_free) := by
  simp only [Ropes.alloc, Ropes.alloc_peek, allocScanGo, h]
  simp

/-- Number of continuation chunks needed for a payload of `len` bytes with
per-chunk capacity `cap` (the ceiling of `len / cap`). -/
def chunksNeeded (cap len : Nat) : Nat := (len + cap - 1) / cap

theorem chunksNeeded_zero (cap : Nat) : chunksNeeded cap 0 = 0 := by
  unfold chunksNeeded
  rcases Nat.eq_zero_or_pos cap with h | h
  · subst h
    rfl
  · exact Nat.div_eq_of_lt (by omega)

theorem chunksNeeded_one {cap len : Nat} (h1 : len ≠ 0) (h2 : cap ≠ 0) (h3 : len ≤ cap) :
    chunksNeeded cap len = 1 := by
  unfold chunksNeeded
  have h := Nat.div_eq_of_lt_le (show 1 * cap ≤ len + cap - 1 by omega)
    (show len + cap - 1 < (1 + 1) * cap by omega)
  simpa using h

theorem chunksNeeded_step {cap len : Nat} (h2 : cap ≠ 0) (h3 : cap < len) :
    chunksNeeded cap len = 1 + chunksNeeded cap (len - cap) := by
  unfold chunksNeeded
  have hrw : len + cap - 1 = len - cap + cap - 1 + cap := by omega
  rw [hrw, Nat.add_div_right _ (by omega)]
  omega

theorem chunksNeeded_pos {cap len : Nat} (h1 : len ≠ 0) (h2 : cap ≠ 0) :
    1 ≤ chunksNeeded cap len := by
  by_cases h3 : len ≤ cap
  · rw [chunksNeeded_one h1 h2 h3]
  · rw [chunksNeeded_step h2 (by omega)]
    omega

/-! `next_free` monotonicity. -/

theorem Ropes.writeU32_next_free {r r' : Ropes} {chunk index val : Nat}
    (h : r.writeU32 chunk index val = some r') : r'.next_free = r.next_free := by
  simp only [Ropes.writeU32] at h
  cases hw : r.storage.write_u32 chunk index val with
  | none => rw [hw] at h; exact absurd h (by simp)
  | some st =>
    rw [hw] at h
    have h2 : ({ r with storage := st } : Ropes) = r' := Option.some.inj h
    rw [← h2]

theorem Ropes.insertContGo_next_free_mono :
    ∀ (fuel : Nat) (r : Ropes) (cur : Nat) (data : List Nat) (r' : Ropes),
      Ropes.insertContGo fuel r cur data = some r' → r.next_free ≤ r'.next_free := by
  intro fuel
  induction fuel with
  | zero =>
    intro r cur data r' h
    simp only [Ropes.insertContGo] at h
    split at h
    · have h2 : r = r' := Option.some.inj h
      rw [← h2]
    · exact absurd h (by simp)
  | succ f ih =>
    intro r cur data r' h
    simp only [Ropes.insertContGo] at h
    split at h
    · have h2 : r = r' := Option.some.inj h
      rw [← h2]
    · split at h
      · exact absurd h (by simp)
      · rename_i nxt_ hread
        split at h
        · exact absurd h (by simp)
        · rename_i p st wr_len hwrite
          split at h
          · -- continuation continues: pick next chunk, maybe write pointer, recurse
            split at h
            · exact absurd h (by simp)
            · rename_i q r2 nxt hnx
              have hr2 : r.next_free ≤ r2.next_free := by
                split at hnx
                · have heq : ({ r with storage := st }, nxt_) = (r2, nxt) := Option.some.inj hnx
                  have hh := congrArg (fun z => (Prod.fst z).next_free) heq
                  simp only at hh
                  omega
                · cases ha : Ropes.alloc { r with storage := st } with
                  | none => rw [ha] at hnx; exact absurd hnx (by simp)
                  | some pa =>
                    rw [ha] at hnx
                    obtain ⟨a1, a2, a3, a4⟩ := Ropes.alloc_spec ha
                    have heq : (pa.1, pa.2 % 2 ^ 32) = (r2, nxt) := Option.some.inj hnx
                    have hh := congrArg (fun z => (Prod.fst z).next_free) heq
                    rw [a4] at hh
                    simp only [Ropes.mk_next_free] at hh
                    simp only [Ropes.next_free] at a1
                    omega
              split at h
              · exact absurd h (by simp)
              · rename_i r3 hw3
                have hr3 : r3.next_free = r2.next_free := by
                  split at hw3
                  · exact Ropes.writeU32_next_free hw3
                  · have h2 : r2 = r3 := Option.some.inj hw3
                    rw [h2]
                have := ih r3 nxt _ r' h
                omega
          · -- last chunk: maybe write the end sentinel
            split at h
            · exact absurd h (by simp)
            · rename_i r2 hw2
              have h2 : r2 = r' := Option.some.inj h
              have hr2 : r2.next_free = r.next_free := by
                split at hw2
                · rw [Ropes.writeU32_next_free hw2]
                · have h3 : ({ r with storage := st } : Ropes) = r2 := Option.some.inj hw2
                  rw [← h3]
              rw [← h2]
              omega

theorem Ropes.insert_cont_next_free_mono {r r2 : Ropes} {maybe_at head : Nat}
    {data : List Nat} (h : r.insert_cont maybe_at data = some (r2, head)) :
    r.next_free ≤ r2.next_free := by
  simp only [Ropes.insert_cont] at h
  split at h
  · exact absurd h (by simp)
  · rename_i p r1 hd hsel
    have hr1 : r.next_free ≤ r1.next_free := by
      split at hsel
      · have heq : (r, maybe_at) = (r1, hd) := Option.some.inj hsel
        have hh := congrArg (fun z => (Prod.fst z).next_free) heq
        simp only at hh
        omega
      · obtain ⟨a1, a2, a3, a4⟩ := Ropes.alloc_spec hsel
        rw [a4]
        simp only [Ropes.mk_next_free]
        omega
    cases hg : Ropes.insertContGo (data.length + 1) r1 hd data with
    | none => rw [hg] at h; exact absurd h (by simp)
    | some r3 =>
      rw [hg] at h
      have heq : (r3, hd) = (r2, head) := Option.some.inj h
      have hh := congrArg (fun z => (Prod.fst z).next_free) heq
      simp only at hh
      have := Ropes.insertContGo_next_free_mono _ _ _ _ _ hg
      omega

theorem Ropes.insert_at_next_free_mono {r r2 : Ropes} {key ver : Nat} {data : List Nat}
    (h : r.insert_at key data = some (r2, ver)) : r.next_free ≤ r2.next_free := by
  simp only [Ropes.insert_at] at h
  split at h
  · exact absurd h (by simp)
  · rename_i v hread
    split at h
    · exact absurd h (by simp)
    · rename_i st1 hw1
      split at h
      · exact absurd h (by simp)
      · rename_i st2 hw2
        split at h
        · exact absurd h (by simp)
        · rename_i nxt_ hread2
          split at h
          · exact absurd h (by simp)
          · rename_i p st3 wr_len hw3
            split at h
            · exact absurd h (by simp)
            · rename_i q rq nxt hsel
              have hrq : r.next_free ≤ rq.next_free := by
                split at hsel
                · cases hc : Ropes.insert_cont { r with storage := st3 } nxt_
                      (data.drop wr_len) with
                  | none => rw [hc] at hsel; exact absurd hsel (by simp)
                  | some pc =>
                    rw [hc] at hsel
                    have hcm : ({ r with storage := st3 } : Ropes).next_free ≤
                        pc.1.next_free := by
                      have hc2 : Ropes.insert_cont { r with storage := st3 } nxt_
                          (data.drop wr_len) = some (pc.1, pc.2) := hc
                      exact Ropes.insert_cont_next_free_mono hc2
                    have heq : (pc.1, pc.2 % 2 ^ 32) = (rq, nxt) := Option.some.inj hsel
                    have hh := congrArg (fun z => (Prod.fst z).next_free) heq
                    simp only at hh
                    simp only [Ropes.mk_next_free] at hcm
                    omega
                · have heq : ({ r with storage := st3 }, 0) = ((rq, nxt) : Ropes × Nat) :=
                    Option.some.inj hsel
                  have hh := congrArg (fun z => (Prod.fst z).next_free) heq
                  simp only at hh
                  omega
              split at h
              · exact absurd h (by simp)
              · rename_i r3 hw4
                have hr3 : r3.next_free = rq.next_free := by
                  split at hw4
                  · exact Ropes.writeU32_next_free hw4
                  · have h2 : rq = r3 := Option.some.inj hw4
                    rw [h2]
                have heq : (r3, (v + 1) % 2 ^ 32) = (r2, ver) := Option.some.inj h
                have hh := congrArg (fun z => (Prod.fst z).next_free) heq
                simp only at hh
                omega

/-! Further congruence helpers. -/

theorem read_u32_congr {m m' : Nat → Nat} {N C chunk index : Nat}
    (h : ∀ x, chunk * C + 4 * index ≤ x → x < chunk * C + 4 * index + 4 → m' x = m x) :
    Chunked.read_u32 ⟨m', N, C⟩ chunk index = Chunked.read_u32 ⟨m, N, C⟩ chunk index := by
  simp only [Chunked.read_u32, Chunked.address, Chunked.mk_byteLength, Chunked.mk_chunkSize]
  by_cases hb : chunk * C + 4 * index + 4 ≤ N
  · rw [if_pos hb, if_pos hb, be32_congr h]
  · rw [if_neg hb, if_neg hb]

theorem byteRange_congr {m m' : Nat → Nat} {N C N' C' a n : Nat}
    (h : ∀ x, a ≤ x → x < a + n → m' x = m x) :
    (List.range n).map (fun i => Chunked.byteAt ⟨m', N', C'⟩ (a + i)) =
      (List.range n).map (fun i => Chunked.byteAt ⟨m, N, C⟩ (a + i)) := by
  apply List.map_congr_left
  intro i hi
  simp only [List.mem_range] at hi
  exact byteAt_congr (h (a + i) (by omega) (by omega))

/-! Main correctness lemma for the continuation loop in the fresh-allocation
regime: the old next pointer is absent (the head had no reusable chain), so
every continuation chunk is drawn from the zeroed region starting at the
free cursor, and the loop lays the payload tail out as a chain. -/

theorem insertContGo_fresh {N C : Nat} (hC : 13 ≤ C) :
    ∀ (fuel : Nat) (data : List Nat) (m : Nat → Nat) (c0 : Nat),
      data ≠ [] →
      (∀ b ∈ data, b < 256) →
      chunksNeeded (C - 4) data.length ≤ fuel →
      (∀ j, j < chunksNeeded (C - 4) data.length →
        Chunked.read_u32 ⟨m, N, C⟩ (c0 + j) 0 = some 0) →
      (c0 + chunksNeeded (C - 4) data.length) * C ≤ N →
      c0 + chunksNeeded (C - 4) data.length < 2 ^ 32 →
      ∃ m', Ropes.insertContGo fuel ⟨⟨m, N, C⟩, c0 + 1⟩ c0 data =
          some ⟨⟨m', N, C⟩, c0 + chunksNeeded (C - 4) data.length⟩ ∧
        Chain ⟨m', N, C⟩ c0 c0 data 4 0 ∧
        (∀ a, a < c0 * C → m' a = m a) ∧
        (∀ a, (c0 + chunksNeeded (C - 4) data.length) * C ≤ a → m' a = m a) := by
  intro fuel
  induction fuel with
  | zero =>
    intro data m c0 hne hb hf hz hbound hcast
    exfalso
    have hlen : 0 < data.length := List.length_pos.mpr hne
    have := @chunksNeeded_pos (C - 4) data.length (by omega) (by omega)
    omega
  | succ f ih =>
    intro data m c0 hne hb hf hz hbound hcast
    have hlen : 0 < data.length := List.length_pos.mpr hne
    have hcap : C - 4 ≠ 0 := by omega
    have hk1 : 1 ≤ chunksNeeded (C - 4) data.length := chunksNeeded_pos (by omega) hcap
    have hcc1 : (c0 + 1) * C = c0 * C + C := by ring
    have hCk : (c0 + 1) * C ≤ N :=
      le_trans (Nat.mul_le_mul_right C (by omega)) hbound
    have e1 : Chunked.read_u32 ⟨m, N, C⟩ c0 0 = some 0 := by
      have := hz 0 (by omega)
      simpa using this
    have hminle : min data.length (C - 4) ≤ C - 4 := Nat.min_le_right _ _
    have e2 : Chunked.write_bytes ⟨m, N, C⟩ c0 4 data =
        some (⟨storeBytes m (c0 * C + 4) (data.take (min data.length (C - 4))), N, C⟩,
          min data.length (C - 4)) :=
      write_bytes_some (by omega) (by omega)
    by_cases hfit : data.length ≤ C - 4
    · -- the whole tail fits in this chunk; write it and the end sentinel
      have hmin : min data.length (C - 4) = data.length := Nat.min_eq_left hfit
      have hkeq : chunksNeeded (C - 4) data.length = 1 := chunksNeeded_one (by omega) hcap hfit
      rw [hmin, List.take_length] at e2
      have e3 : Ropes.writeU32 ⟨⟨storeBytes m (c0 * C + 4) data, N, C⟩, c0 + 1⟩ c0 0 1 =
          some ⟨⟨storeBytes (storeBytes m (c0 * C + 4) data) (c0 * C) (u32bytes 1), N, C⟩,
            c0 + 1⟩ := by
        simp only [Ropes.writeU32]
        rw [write_u32_some (by omega)]
        norm_num
      refine ⟨storeBytes (storeBytes m (c0 * C + 4) data) (c0 * C) (u32bytes 1), ?_, ?_, ?_, ?_⟩
      · rw [hkeq]
        simp only [Ropes.insertContGo, Nat.mul_one]
        rw [if_neg (by omega)]
        simp only [e1, e2, List.drop_length, List.length_nil,
          if_neg (Nat.lt_irrefl 0)]
        simp only [if_pos (show (1 : Nat) ≠ 0 by omega), e3]
      · apply Chain.last c0 4 0 data hne (le_refl c0) (by simp only [Chunked.mk_chunkSize]; omega)
          (by simp only [Chunked.mk_chunkSize]; omega)
          (by simp only [Chunked.mk_chunkSize, Chunked.mk_byteLength]; omega)
        have hstep1 : (List.range data.length).map
              (fun i => Chunked.byteAt
                ⟨storeBytes (storeBytes m (c0 * C + 4) data) (c0 * C) (u32bytes 1), N, C⟩
                (c0 * C + 4 + i)) =
            (List.range data.length).map
              (fun i => Chunked.byteAt ⟨storeBytes m (c0 * C + 4) data, N, C⟩
                (c0 * C + 4 + i)) := by
          apply byteRange_congr
          intro x hx1 hx2
          exact storeBytes_ge (by simp [u32bytes]; omega)
        simp only [Chunked.mk_chunkSize]
        rw [hstep1]
        exact storeBytes_readback (c0 * C + 4) data hb
      · intro a ha
        rw [storeBytes_lt (by omega), storeBytes_lt (by omega)]
      · intro a ha
        rw [hkeq] at ha
        rw [storeBytes_ge (by simp [u32bytes]; omega), storeBytes_ge (by omega)]
    · -- the tail overflows into further chunks
      have hlt : C - 4 < data.length := by omega
      have hmin : min data.length (C - 4) = C - 4 := Nat.min_eq_right (by omega)
      rw [hmin] at e2
      have htklen : (data.take (C - 4)).length = C - 4 := by
        rw [List.length_take]
        omega
      have hrestlen : (data.drop (C - 4)).length = data.length - (C - 4) := by
        simp [List.length_drop]
      have hkstep : chunksNeeded (C - 4) data.length =
          1 + chunksNeeded (C - 4) (data.drop (C - 4)).length := by
        rw [chunksNeeded_step hcap hlt, hrestlen]
      have hk2 : 2 ≤ chunksNeeded (C - 4) data.length := by
        have : 1 ≤ chunksNeeded (C - 4) (data.drop (C - 4)).length :=
          chunksNeeded_pos (by omega) hcap
        omega
      -- memory after the payload write and the pointer write
      have hm1ge : ∀ x, c0 * C + C ≤ x → storeBytes m (c0 * C + 4) (data.take (C - 4)) x = m x := by
        intro x hx
        exact storeBytes_ge (by omega)
      have hm2ge : ∀ x, c0 * C + C ≤ x →
          storeBytes (storeBytes m (c0 * C + 4) (data.take (C - 4))) (c0 * C)
            (u32bytes (c0 + 1)) x = m x := by
        intro x hx
        rw [storeBytes_ge (by simp [u32bytes]; omega)]
        exact hm1ge x hx
      have ez1 : Chunked.read_u32
          ⟨storeBytes m (c0 * C + 4) (data.take (C - 4)), N, C⟩ (c0 + 1) 0 = some 0 := by
        have hz1 := hz 1 (by omega)
        have hcongr : Chunked.read_u32
            ⟨storeBytes m (c0 * C + 4) (data.take (C - 4)), N, C⟩ (c0 + 1) 0 =
            Chunked.read_u32 ⟨m, N, C⟩ (c0 + 1) 0 := by
          apply read_u32_congr
          intro x hx1 hx2
          apply storeBytes_ge
          have := Nat.mul_le_mul_right C (show c0 + 1 ≤ c0 + 1 from le_refl _)
          omega
        rw [hcongr]
        simpa using hz1
      have ea : Ropes.alloc ⟨⟨storeBytes m (c0 * C + 4) (data.take (C - 4)), N, C⟩, c0 + 1⟩ =
          some (⟨⟨storeBytes m (c0 * C + 4) (data.take (C - 4)), N, C⟩, c0 + 1 + 1⟩,
            c0 + 1) := Ropes.alloc_at_zero ez1
      have hmod : (c0 + 1) % 2 ^ 32 = c0 + 1 := Nat.mod_eq_of_lt (by omega)
      have e3 : Ropes.writeU32
          ⟨⟨storeBytes m (c0 * C + 4) (data.take (C - 4)), N, C⟩, c0 + 1 + 1⟩ c0 0 (c0 + 1) =
          some ⟨⟨storeBytes (storeBytes m (c0 * C + 4) (data.take (C - 4))) (c0 * C)
              (u32bytes (c0 + 1)), N, C⟩, c0 + 1 + 1⟩ := by
        simp only [Ropes.writeU32]
        rw [write_u32_some (by omega)]
        norm_num
      -- invoke the induction hypothesis on the remaining tail
      have hznext : ∀ j, j < chunksNeeded (C - 4) (data.drop (C - 4)).length →
          Chunked.read_u32 ⟨storeBytes (storeBytes m (c0 * C + 4) (data.take (C - 4))) (c0 * C)
            (u32bytes (c0 + 1)), N, C⟩ (c0 + 1 + j) 0 = some 0 := by
        intro j hj
        have hz2 := hz (1 + j) (by omega)
        have hidx : c0 + (1 + j) = c0 + 1 + j := by omega
        rw [hidx] at hz2
        have hcongr : Chunked.read_u32 ⟨storeBytes (storeBytes m (c0 * C + 4)
              (data.take (C - 4))) (c0 * C) (u32bytes (c0 + 1)), N, C⟩ (c0 + 1 + j) 0 =
            Chunked.read_u32 ⟨m, N, C⟩ (c0 + 1 + j) 0 := by
          apply read_u32_congr
          intro x hx1 hx2
          apply hm2ge
          have := Nat.mul_le_mul_right C (show c0 + 1 ≤ c0 + 1 + j by omega)
          omega
        rw [hcongr]
        exact hz2
      have hidx2 : c0 + 1 + chunksNeeded (C - 4) (data.drop (C - 4)).length =
          c0 + chunksNeeded (C - 4) data.length := by omega
      obtain ⟨m3, ih1, ih2, ih3, ih4⟩ := ih (data.drop (C - 4))
        (storeBytes (storeBytes m (c0 * C + 4) (data.take (C - 4))) (c0 * C)
          (u32bytes (c0 + 1)))
        (c0 + 1)
        (by intro hcon; rw [hcon] at hrestlen; simp at hrestlen; omega)
        (fun b hb2 => hb b (List.drop_subset _ _ hb2))
        (by omega)
        hznext
        (by rw [hidx2]; exact hbound)
        (by omega)
      refine ⟨m3, ?_, ?_, ?_, ?_⟩
      · simp only [Ropes.insertContGo, Nat.mul_one]
        rw [if_neg (by omega)]
        simp only [e1, e2, if_pos (show 0 < (data.drop (C - 4)).length by omega),
          if_neg (show ¬ ((0 : Nat) > 1) by omega), ea, Option.map_some', hmod,
          if_pos (show c0 + 1 ≠ 0 by omega), e3]
        rw [ih1, hidx2]
      · refine Chain.cons c0 4 0 (c0 + 1) data (le_refl c0)
          (by simp only [Chunked.mk_chunkSize]; omega)
          (by simp only [Chunked.mk_chunkSize]; omega)
          (by simp only [Chunked.mk_chunkSize, Chunked.mk_byteLength]; omega)
          ?_ ?_ ?_
        · try simp only [Chunked.mk_chunkSize]
          have hstep1 : (List.range (C - 4)).map
                (fun i => Chunked.byteAt ⟨m3, N, C⟩ (c0 * C + 4 + i)) =
              (List.range (C - 4)).map
                (fun i => Chunked.byteAt ⟨storeBytes (storeBytes m (c0 * C + 4)
                  (data.take (C - 4))) (c0 * C) (u32bytes (c0 + 1)), N, C⟩
                  (c0 * C + 4 + i)) := by
            apply byteRange_congr
            intro x hx1 hx2
            apply ih3
            omega
          have hstep2 : (List.range (C - 4)).map
                (fun i => Chunked.byteAt ⟨storeBytes (storeBytes m (c0 * C + 4)
                  (data.take (C - 4))) (c0 * C) (u32bytes (c0 + 1)), N, C⟩
                  (c0 * C + 4 + i)) =
              (List.range (C - 4)).map
                (fun i => Chunked.byteAt ⟨storeBytes m (c0 * C + 4)
                  (data.take (C - 4)), N, C⟩ (c0 * C + 4 + i)) := by
            apply byteRange_congr
            intro x hx1 hx2
            exact storeBytes_ge (by simp [u32bytes]; omega)
          rw [hstep1, hstep2]
          have := storeBytes_readback (m := m) (N := N) (C := C) (c0 * C + 4)
            (data.take (C - 4)) (fun b hb2 => hb b (List.take_subset _ _ hb2))
          rw [htklen] at this
          exact this
        · try simp only [Chunked.mk_chunkSize]
          have hcongr : Chunked.read_u32 ⟨m3, N, C⟩ c0 0 =
              Chunked.read_u32 ⟨storeBytes (storeBytes m (c0 * C + 4)
                (data.take (C - 4))) (c0 * C) (u32bytes (c0 + 1)), N, C⟩ c0 0 := by
            apply read_u32_congr
            intro x hx1 hx2
            apply ih3
            omega
          rw [hcongr]
          rw [read_u32_some (by omega)]
          have : Chunked.be32 ⟨storeBytes (storeBytes m (c0 * C + 4)
              (data.take (C - 4))) (c0 * C) (u32bytes (c0 + 1)), N, C⟩ (c0 * C + 4 * 0) =
              (c0 + 1) % 2 ^ 32 := by
            norm_num
            exact be32_store
          rw [this, hmod]
        · try simp only [Chunked.mk_chunkSize]
          exact Chain.mono (by omega) ih2
      · intro a ha
        rw [ih3 a (by omega)]
        rw [storeBytes_lt (by omega), storeBytes_lt (by omega)]
      · intro a ha
        rw [ih4 a (by rw [hidx2]; exact ha)]
        apply hm2ge
        have := Nat.mul_le_mul_right C (show c0 + 1 ≤ c0 + chunksNeeded (C - 4) data.length
          by omega)
        omega

/-! Canonical word accessors for the three header words. -/

theorem read_u32_w0 {m : Nat → Nat} {N C chunk : Nat} (h : chunk * C + 4 ≤ N) :
    Chunked.read_u32 ⟨m, N, C⟩ chunk 0 = some (Chunked.be32 ⟨m, N, C⟩ (chunk * C)) := by
  rw [read_u32_some (by omega)]
  try norm_num

theorem read_u32_w1 {m : Nat → Nat} {N C chunk : Nat} (h : chunk * C + 8 ≤ N) :
    Chunked.read_u32 ⟨m, N, C⟩ chunk 1 = some (Chunked.be32 ⟨m, N, C⟩ (chunk * C + 4)) := by
  rw [read_u32_some (by omega)]
  try norm_num

theorem read_u32_w2 {m : Nat → Nat} {N C chunk : Nat} (h : chunk * C + 12 ≤ N) :
    Chunked.read_u32 ⟨m, N, C⟩ chunk 2 = some (Chunked.be32 ⟨m, N, C⟩ (chunk * C + 8)) := by
  rw [read_u32_some (by omega)]
  try norm_num

theorem write_u32_w0 {m : Nat → Nat} {N C chunk val : Nat} (h : chunk * C + 4 ≤ N) :
    Chunked.write_u32 ⟨m, N, C⟩ chunk 0 val =
      some ⟨storeBytes m (chunk * C) (u32bytes val), N, C⟩ := by
  rw [write_u32_some (by omega)]
  try norm_num

theorem write_u32_w1 {m : Nat → Nat} {N C chunk val : Nat} (h : chunk * C + 8 ≤ N) :
    Chunked.write_u32 ⟨m, N, C⟩ chunk 1 val =
      some ⟨storeBytes m (chunk * C + 4) (u32bytes val), N, C⟩ := by
  rw [write_u32_some (by omega)]
  try norm_num

theorem write_u32_w2 {m : Nat → Nat} {N C chunk val : Nat} (h : chunk * C + 12 ≤ N) :
    Chunked.write_u32 ⟨m, N, C⟩ chunk 2 val =
      some ⟨storeBytes m (chunk * C + 8) (u32bytes val), N, C⟩ := by
  rw [write_u32_some (by omega)]
  try norm_num

theorem chunksNeeded_le {cap : Nat} (hcap : cap ≠ 0) : ∀ len, chunksNeeded cap len ≤ len := by
  intro len
  induction len using Nat.strong_induction_on with
  | _ len ih =>
    by_cases h0 : len = 0
    · subst h0
      rw [chunksNeeded_zero]
    · by_cases h1 : len ≤ cap
      · rw [chunksNeeded_one h0 hcap h1]
        omega
      · rw [chunksNeeded_step hcap (by omega)]
        have := ih (len - cap) (by omega)
        omega

/-- `Ropes::insert_cont` in the fresh-allocation regime: no reusable chain
(`maybe_at ≤ 1`), continuation chunks taken consecutively from the zeroed
region at the free cursor. -/
theorem insert_cont_fresh {N C : Nat} (hC : 13 ≤ C) (m : Nat → Nat) (nf maybe_at : Nat)
    (data : List Nat)
    (hma : maybe_at ≤ 1)
    (hne : data ≠ [])
    (hb : ∀ b ∈ data, b < 256)
    (hz : ∀ j, j < chunksNeeded (C - 4) data.length →
      Chunked.read_u32 ⟨m, N, C⟩ (nf + j) 0 = some 0)
    (hbound : (nf + chunksNeeded (C - 4) data.length) * C ≤ N)
    (hcast : nf + chunksNeeded (C - 4) data.length < 2 ^ 32) :
    ∃ m', Ropes.insert_cont ⟨⟨m, N, C⟩, nf⟩ maybe_at data =
        some (⟨⟨m', N, C⟩, nf + chunksNeeded (C - 4) data.length⟩, nf) ∧
      Chain ⟨m', N, C⟩ nf nf data 4 0 ∧
      (∀ a, a < nf * C → m' a = m a) ∧
      (∀ a, (nf + chunksNeeded (C - 4) data.length) * C ≤ a → m' a = m a) := by
  have hlen : 0 < data.length := List.length_pos.mpr hne
  have hk1 : 1 ≤ chunksNeeded (C - 4) data.length := chunksNeeded_pos (by omega) (by omega)
  have e0 : Chunked.read_u32 ⟨m, N, C⟩ nf 0 = some 0 := by
    simpa using hz 0 (by omega)
  have ea : Ropes.alloc ⟨⟨m, N, C⟩, nf⟩ = some (⟨⟨m, N, C⟩, nf + 1⟩, nf) :=
    Ropes.alloc_at_zero e0
  obtain ⟨m', g1, g2, g3, g4⟩ := insertContGo_fresh hC (data.length + 1) data m nf hne hb
    (le_trans (chunksNeeded_le (by omega) data.length) (by omega)) hz hbound hcast
  refine ⟨m', ?_, g2, g3, g4⟩
  simp only [Ropes.insert_cont, if_neg (show ¬ maybe_at > 1 by omega), ea,
    Option.map_some', g1]

/-- `Ropes::insert_at` when the payload fits in the head chunk: the version
word is bumped, word 1 records the length, word 2 becomes 0 (either it
already was 0, or the changed-pointer write stores 0), `get` returns the
payload, and nothing outside chunk `key` changes. -/
theorem insert_at_fit {N C : Nat} (m : Nat → Nat) (nf key : Nat) (data : List Nat)
    (hC : 13 ≤ C)
    (hkey : (key + 1) * C ≤ N)
    (hbytes : ∀ b ∈ data, b < 256)
    (hlen : data.length < 2 ^ 32)
    (hfit : data.length ≤ C - 12) :
    ∃ m',
      Ropes.insert_at ⟨⟨m, N, C⟩, nf⟩ key data =
        some (⟨⟨m', N, C⟩, nf⟩, (Chunked.be32 ⟨m, N, C⟩ (key * C) + 1) % 2 ^ 32) ∧
      Chunked.read_u32 ⟨m', N, C⟩ key 0 =
        some ((Chunked.be32 ⟨m, N, C⟩ (key * C) + 1) % 2 ^ 32) ∧
      Chunked.read_u32 ⟨m', N, C⟩ key 1 = some data.length ∧
      Chunked.read_u32 ⟨m', N, C⟩ key 2 = some 0 ∧
      Ropes.get ⟨⟨m', N, C⟩, nf⟩ key = some data ∧
      (∀ a, a < key * C → m' a = m a) ∧ (∀ a, (key + 1) * C ≤ a → m' a = m a) := by
  have hcc : (key + 1) * C = key * C + C := by ring
  have hb4 : key * C + 4 ≤ N := by omega
  have hb8 : key * C + 8 ≤ N := by omega
  have hb12 : key * C + 12 ≤ N := by omega
  set v := Chunked.be32 ⟨m, N, C⟩ (key * C) with hv
  have hverlt : (v + 1) % 2 ^ 32 < 2 ^ 32 := Nat.mod_lt _ (by norm_num)
  set m1 := storeBytes m (key * C) (u32bytes ((v + 1) % 2 ^ 32)) with hm1
  set m2 := storeBytes m1 (key * C + 4) (u32bytes data.length) with hm2
  set m3 := storeBytes m2 (key * C + 12) data with hm3
  have e1 : Chunked.read_u32 ⟨m, N, C⟩ key 0 = some v := read_u32_w0 hb4
  have e2 : Chunked.write_u32 ⟨m, N, C⟩ key 0 ((v + 1) % 2 ^ 32) = some ⟨m1, N, C⟩ :=
    write_u32_w0 hb4
  have e3 : Chunked.write_u32 ⟨m1, N, C⟩ key 1 data.length = some ⟨m2, N, C⟩ :=
    write_u32_w1 hb8
  have hm2low : ∀ x, key * C + 8 ≤ x → m2 x = m x := by
    intro x hx
    rw [hm2, storeBytes_ge (by simp [u32bytes]; omega), hm1,
      storeBytes_ge (by simp [u32bytes]; omega)]
  have n2eq : Chunked.be32 ⟨m2, N, C⟩ (key * C + 8) = Chunked.be32 ⟨m, N, C⟩ (key * C + 8) :=
    be32_congr (fun x h1 h2 => hm2low x (by omega))
  have e4 : Chunked.read_u32 ⟨m2, N, C⟩ key 2 = some (Chunked.be32 ⟨m, N, C⟩ (key * C + 8)) := by
    rw [read_u32_w2 hb12, n2eq]
  have hmin : min data.length (C - 12) = data.length := Nat.min_eq_left hfit
  have e5 : Chunked.write_bytes ⟨m2, N, C⟩ key 12 data = some (⟨m3, N, C⟩, data.length) := by
    rw [write_bytes_some (by omega) (by omega)]
    rw [hmin, List.take_length, hm3]
  -- header facts about m3
  have f0 : Chunked.be32 ⟨m3, N, C⟩ (key * C) = (v + 1) % 2 ^ 32 := by
    have hcg : Chunked.be32 ⟨m3, N, C⟩ (key * C) = Chunked.be32 ⟨m1, N, C⟩ (key * C) := by
      apply be32_congr
      intro x hx1 hx2
      rw [hm3, storeBytes_lt (by omega), hm2, storeBytes_lt (by omega)]
    rw [hcg, hm1, be32_store]
    omega
  have f1 : Chunked.be32 ⟨m3, N, C⟩ (key * C + 4) = data.length := by
    have hcg : Chunked.be32 ⟨m3, N, C⟩ (key * C + 4) = Chunked.be32 ⟨m2, N, C⟩ (key * C + 4) := by
      apply be32_congr
      intro x hx1 hx2
      rw [hm3, storeBytes_lt (by omega)]
    rw [hcg, hm2, be32_store]
    omega
  have f2 : Chunked.be32 ⟨m3, N, C⟩ (key * C + 8) = Chunked.be32 ⟨m, N, C⟩ (key * C + 8) := by
    have hcg : Chunked.be32 ⟨m3, N, C⟩ (key * C + 8) = Chunked.be32 ⟨m2, N, C⟩ (key * C + 8) := by
      apply be32_congr
      intro x hx1 hx2
      rw [hm3, storeBytes_lt (by omega)]
    rw [hcg, n2eq]
  have fpay : (List.range data.length).map
      (fun i => Chunked.byteAt ⟨m3, N, C⟩ (key * C + 12 + i)) = data := by
    rw [hm3]
    exact storeBytes_readback (key * C + 12) data hbytes
  have flow : ∀ a, a < key * C → m3 a = m a := by
    intro a ha
    rw [hm3, storeBytes_lt (by omega), hm2, storeBytes_lt (by omega), hm1,
      storeBytes_lt (by omega)]
  have fhigh : ∀ a, (key + 1) * C ≤ a → m3 a = m a := by
    intro a ha
    rw [hm3, storeBytes_ge (by omega), hm2, storeBytes_ge (by simp [u32bytes]; omega), hm1,
      storeBytes_ge (by simp [u32bytes]; omega)]
  by_cases hn2 : Chunked.be32 ⟨m, N, C⟩ (key * C + 8) = 0
  · -- word 2 already reads 0: the changed-pointer write is skipped
    refine ⟨m3, ?_, ?_, ?_, ?_, ?_, flow, fhigh⟩
    · simp only [Ropes.insert_at, e1, e2, e3, e4, show ((4 : Nat) * 3) = 12 from rfl, e5,
        if_neg (Nat.lt_irrefl data.length), hn2,
        if_neg (show ¬ ((0 : Nat) ≠ 0) by omega)]
    · rw [read_u32_w0 (by omega), f0]
    · rw [read_u32_w1 (by omega), f1]
    · rw [read_u32_w2 (by omega), f2, hn2]
    · simp only [Ropes.get, read_u32_w1 (show key * C + 8 ≤ N by omega), f1,
        show ((4 : Nat) * 3) = 12 from rfl]
      by_cases hnil : data = []
      · subst hnil
        simp [Ropes.getGo]
      · exact getGo_spec data key 12 2
          (Chain.last key 12 2 data hnil (le_refl key)
            (by simp only [Chunked.mk_chunkSize]; omega)
            (by simp only [Chunked.mk_chunkSize]; omega)
            (by simp only [Chunked.mk_chunkSize, Chunked.mk_byteLength]; omega) fpay)
          (data.length + 1) (by omega)
  · -- word 2 was non-zero: insert_at rewrites it to 0
    set m4 := storeBytes m3 (key * C + 8) (u32bytes 0) with hm4
    have e6 : Ropes.writeU32 ⟨⟨m3, N, C⟩, nf⟩ key 2 0 = some ⟨⟨m4, N, C⟩, nf⟩ := by
      simp only [Ropes.writeU32]
      rw [write_u32_w2 (by omega)]
      rfl
    have g0 : Chunked.be32 ⟨m4, N, C⟩ (key * C) = (v + 1) % 2 ^ 32 := by
      rw [← f0]
      apply be32_congr
      intro x hx1 hx2
      rw [hm4, storeBytes_lt (by omega)]
    have g1 : Chunked.be32 ⟨m4, N, C⟩ (key * C + 4) = data.length := by
      rw [← f1]
      apply be32_congr
      intro x hx1 hx2
      rw [hm4, storeBytes_lt (by omega)]
    have g2 : Chunked.be32 ⟨m4, N, C⟩ (key * C + 8) = 0 := by
      rw [hm4, be32_store]
      omega
    have gpay : (List.range data.length).map
        (fun i => Chunked.byteAt ⟨m4, N, C⟩ (key * C + 12 + i)) = data := by
      have hstep : (List.range data.length).map
            (fun i => Chunked.byteAt ⟨m4, N, C⟩ (key * C + 12 + i)) =
          (List.range data.length).map
            (fun i => Chunked.byteAt ⟨m3, N, C⟩ (key * C + 12 + i)) := by
        apply byteRange_congr
        intro x hx1 hx2
        rw [hm4, storeBytes_ge (by simp [u32bytes]; omega)]
      exact hstep.trans fpay
    refine ⟨m4, ?_, ?_, ?_, ?_, ?_, ?_, ?_⟩
    · simp only [Ropes.insert_at, e1, e2, e3, e4, show ((4 : Nat) * 3) = 12 from rfl, e5,
        if_neg (Nat.lt_irrefl data.length),
        if_pos (show (0 : Nat) ≠ Chunked.be32 ⟨m, N, C⟩ (key * C + 8) from
          fun hh => hn2 hh.symm), e6]
    · rw [read_u32_w0 (by omega), g0]
    · rw [read_u32_w1 (by omega), g1]
    · rw [read_u32_w2 (by omega), g2]
    · simp only [Ropes.get, read_u32_w1 (show key * C + 8 ≤ N by omega), g1,
        show ((4 : Nat) * 3) = 12 from rfl]
      by_cases hnil : data = []
      · subst hnil
        simp [Ropes.getGo]
      · exact getGo_spec data key 12 2
          (Chain.last key 12 2 data hnil (le_refl key)
            (by simp only [Chunked.mk_chunkSize]; omega)
            (by simp only [Chunked.mk_chunkSize]; omega)
            (by simp only [Chunked.mk_chunkSize, Chunked.mk_byteLength]; omega) gpay)
          (data.length + 1) (by omega)
    · intro a ha
      rw [hm4, storeBytes_lt (by omega)]
      exact flow a ha
    · intro a ha
      rw [hm4, storeBytes_ge (by simp [u32bytes]; omega)]
      exact fhigh a ha

/-- `Ropes::insert_at` when the payload overflows the head chunk and the head
has no reusable continuation (word 2 at or below the sentinel): the payload
tail is spilled into fresh chunks at the free cursor, and word 2 ends up
pointing at the first of them. -/
theorem insert_at_overflow {N C : Nat} (m : Nat → Nat) (nf key : Nat) (data : List Nat)
    (hC : 13 ≤ C)
    (hkey : (key + 1) * C ≤ N)
    (hbytes : ∀ b ∈ data, b < 256)
    (hlen : data.length < 2 ^ 32)
    (hov : C - 12 < data.length)
    (hknf : key < nf)
    (hn2le : Chunked.be32 ⟨m, N, C⟩ (key * C + 8) ≤ 1)
    (hz : ∀ j, j < chunksNeeded (C - 4) (data.length - (C - 12)) →
      Chunked.read_u32 ⟨m, N, C⟩ (nf + j) 0 = some 0)
    (hbound : (nf + chunksNeeded (C - 4) (data.length - (C - 12))) * C ≤ N)
    (hcast : nf + chunksNeeded (C - 4) (data.length - (C - 12)) < 2 ^ 32) :
    ∃ m',
      Ropes.insert_at ⟨⟨m, N, C⟩, nf⟩ key data =
        some (⟨⟨m', N, C⟩, nf + chunksNeeded (C - 4) (data.length - (C - 12))⟩,
          (Chunked.be32 ⟨m, N, C⟩ (key * C) + 1) % 2 ^ 32) ∧
      Chunked.read_u32 ⟨m', N, C⟩ key 0 =
        some ((Chunked.be32 ⟨m, N, C⟩ (key * C) + 1) % 2 ^ 32) ∧
      Chunked.read_u32 ⟨m', N, C⟩ key 1 = some data.length ∧
      Chunked.read_u32 ⟨m', N, C⟩ key 2 = some nf ∧
      Ropes.get ⟨⟨m', N, C⟩, nf + chunksNeeded (C - 4) (data.length - (C - 12))⟩ key =
        some data ∧
      (∀ a, a < key * C → m' a = m a) ∧
      (∀ a, (key + 1) * C ≤ a → a < nf * C → m' a = m a) ∧
      (∀ a, (nf + chunksNeeded (C - 4) (data.length - (C - 12))) * C ≤ a → m' a = m a) := by
  have hcc : (key + 1) * C = key * C + C := by ring
  have hnfC : (key + 1) * C ≤ nf * C := Nat.mul_le_mul_right C (by omega)
  have hnfK : nf * C ≤ (nf + chunksNeeded (C - 4) (data.length - (C - 12))) * C :=
    Nat.mul_le_mul_right C (by omega)
  have hb4 : key * C + 4 ≤ N := by omega
  have hb8 : key * C + 8 ≤ N := by omega
  have hb12 : key * C + 12 ≤ N := by omega
  set v := Chunked.be32 ⟨m, N, C⟩ (key * C) with hv
  have hverlt : (v + 1) % 2 ^ 32 < 2 ^ 32 := Nat.mod_lt _ (by norm_num)
  set m1 := storeBytes m (key * C) (u32bytes ((v + 1) % 2 ^ 32)) with hm1
  set m2 := storeBytes m1 (key * C + 4) (u32bytes data.length) with hm2
  set m3 := storeBytes m2 (key * C + 12) (data.take (C - 12)) with hm3
  have e1 : Chunked.read_u32 ⟨m, N, C⟩ key 0 = some v := read_u32_w0 hb4
  have e2 : Chunked.write_u32 ⟨m, N, C⟩ key 0 ((v + 1) % 2 ^ 32) = some ⟨m1, N, C⟩ :=
    write_u32_w0 hb4
  have e3 : Chunked.write_u32 ⟨m1, N, C⟩ key 1 data.length = some ⟨m2, N, C⟩ :=
    write_u32_w1 hb8
  have hm2low : ∀ x, key * C + 8 ≤ x → m2 x = m x := by
    intro x hx
    rw [hm2, storeBytes_ge (by simp [u32bytes]; omega), hm1,
      storeBytes_ge (by simp [u32bytes]; omega)]
  have n2eq : Chunked.be32 ⟨m2, N, C⟩ (key * C + 8) = Chunked.be32 ⟨m, N, C⟩ (key * C + 8) :=
    be32_congr (fun x h1 h2 => hm2low x (by omega))
  have e4 : Chunked.read_u32 ⟨m2, N, C⟩ key 2 = some (Chunked.be32 ⟨m, N, C⟩ (key * C + 8)) := by
    rw [read_u32_w2 hb12, n2eq]
  have hmin : min data.length (C - 12) = C - 12 := Nat.min_eq_right (by omega)
  have htk : (data.take (C - 12)).length = C - 12 := by
    rw [List.length_take]
    omega
  have htail_len : (data.drop (C - 12)).length = data.length - (C - 12) := by
    simp [List.length_drop]
  have e5 : Chunked.write_bytes ⟨m2, N, C⟩ key 12 data = some (⟨m3, N, C⟩, C - 12) := by
    rw [write_bytes_some (by omega) (by omega)]
    rw [hmin, hm3]
  have hm3high : ∀ x, (key + 1) * C ≤ x → m3 x = m x := by
    intro x hx
    rw [hm3, storeBytes_ge (by rw [htk]; omega)]
    exact hm2low x (by omega)
  -- run the continuation in the fresh regime
  have hz3 : ∀ j, j < chunksNeeded (C - 4) (data.drop (C - 12)).length →
      Chunked.read_u32 ⟨m3, N, C⟩ (nf + j) 0 = some 0 := by
    intro j hj
    rw [htail_len] at hj
    have hcongr : Chunked.read_u32 ⟨m3, N, C⟩ (nf + j) 0 =
        Chunked.read_u32 ⟨m, N, C⟩ (nf + j) 0 := by
      apply read_u32_congr
      intro x hx1 hx2
      apply hm3high
      have : nf * C ≤ (nf + j) * C := Nat.mul_le_mul_right C (by omega)
      omega
    rw [hcongr]
    exact hz j hj
  obtain ⟨m4, ec, chain4, frlo, frhi⟩ := insert_cont_fresh hC m3 nf
    (Chunked.be32 ⟨m, N, C⟩ (key * C + 8)) (data.drop (C - 12)) hn2le
    (by intro hcon; rw [hcon] at htail_len; simp at htail_len; omega)
    (fun b hb2 => hbytes b (List.drop_subset _ _ hb2))
    hz3
    (by rw [htail_len]; exact hbound)
    (by rw [htail_len]; exact hcast)
  rw [htail_len] at ec frhi
  have hmodnf : nf % 2 ^ 32 = nf := Nat.mod_eq_of_lt (by omega)
  -- facts on m4 that survive to the final state
  have hm4key : ∀ x, x < (key + 1) * C → m4 x = m3 x := by
    intro x hx
    exact frlo x (by omega)
  have f0 : Chunked.be32 ⟨m4, N, C⟩ (key * C) = (v + 1) % 2 ^ 32 := by
    have hcg : Chunked.be32 ⟨m4, N, C⟩ (key * C) = Chunked.be32 ⟨m1, N, C⟩ (key * C) := by
      apply be32_congr
      intro x hx1 hx2
      rw [hm4key x (by omega), hm3, storeBytes_lt (by omega), hm2, storeBytes_lt (by omega)]
    rw [hcg, hm1, be32_store]
    omega
  have f1 : Chunked.be32 ⟨m4, N, C⟩ (key * C + 4) = data.length := by
    have hcg : Chunked.be32 ⟨m4, N, C⟩ (key * C + 4) = Chunked.be32 ⟨m2, N, C⟩ (key * C + 4) := by
      apply be32_congr
      intro x hx1 hx2
      rw [hm4key x (by omega), hm3, storeBytes_lt (by omega)]
    rw [hcg, hm2, be32_store]
    omega
  have f2 : Chunked.be32 ⟨m4, N, C⟩ (key * C + 8) = Chunked.be32 ⟨m, N, C⟩ (key * C + 8) := by
    have hcg : Chunked.be32 ⟨m4, N, C⟩ (key * C + 8) = Chunked.be32 ⟨m2, N, C⟩ (key * C + 8) := by
      apply be32_congr
      intro x hx1 hx2
      rw [hm4key x (by omega), hm3, storeBytes_lt (by omega)]
    rw [hcg, n2eq]
  have fpay : (List.range (C - 12)).map
      (fun i => Chunked.byteAt ⟨m4, N, C⟩ (key * C + 12 + i)) = data.take (C - 12) := by
    have hstep : (List.range (C - 12)).map
          (fun i => Chunked.byteAt ⟨m4, N, C⟩ (key * C + 12 + i)) =
        (List.range (C - 12)).map
          (fun i => Chunked.byteAt ⟨m3, N, C⟩ (key * C + 12 + i)) := by
      apply byteRange_congr
      intro x hx1 hx2
      exact hm4key x (by omega)
    rw [hstep, hm3]
    have := storeBytes_readback (m := m2) (N := N) (C := C) (key * C + 12)
      (data.take (C - 12)) (fun b hb2 => hbytes b (List.take_subset _ _ hb2))
    rw [htk] at this
    exact this
  have flow : ∀ a, a < key * C → m4 a = m a := by
    intro a ha
    rw [hm4key a (by omega), hm3, storeBytes_lt (by omega), hm2, storeBytes_lt (by omega),
      hm1, storeBytes_lt (by omega)]
  have fmid : ∀ a, (key + 1) * C ≤ a → a < nf * C → m4 a = m a := by
    intro a ha1 ha2
    rw [frlo a (by omega)]
    exact hm3high a ha1
  have fhigh : ∀ a, (nf + chunksNeeded (C - 4) (data.length - (C - 12))) * C ≤ a →
      m4 a = m a := by
    intro a ha
    rw [frhi a ha]
    exact hm3high a (by omega)
  by_cases hptr : nf = Chunked.be32 ⟨m, N, C⟩ (key * C + 8)
  · -- the old pointer already equals the fresh head: the pointer write is skipped
    refine ⟨m4, ?_, ?_, ?_, ?_, ?_, flow, fmid, fhigh⟩
    · simp only [Ropes.insert_at, e1, e2, e3, e4, show ((4 : Nat) * 3) = 12 from rfl, e5,
        if_pos hov, ec, Option.map_some', hmodnf,
        if_neg (show ¬ nf ≠ Chunked.be32 ⟨m, N, C⟩ (key * C + 8) by omega)]
    · rw [read_u32_w0 (by omega), f0]
    · rw [read_u32_w1 (by omega), f1]
    · rw [read_u32_w2 (by omega), f2, ← hptr]
    · simp only [Ropes.get, read_u32_w1 (show key * C + 8 ≤ N by omega), f1,
        show ((4 : Nat) * 3) = 12 from rfl]
      refine @getGo_spec _ N C key data key 12 2 ?_ (data.length + 1) (by omega)
      refine Chain.cons key 12 2 nf data (le_refl key)
        (by simp only [Chunked.mk_chunkSize]; omega)
        (by simp only [Chunked.mk_chunkSize]; omega)
        (by simp only [Chunked.mk_chunkSize, Chunked.mk_byteLength]; omega)
        ?_ ?_ ?_
      · try simp only [Chunked.mk_chunkSize]
        exact fpay
      · try simp only [Chunked.mk_chunkSize]
        rw [read_u32_w2 (by omega), f2, ← hptr]
      · try simp only [Chunked.mk_chunkSize]
        exact Chain.mono (by omega) chain4
  · -- the pointer changed: word 2 is rewritten to the fresh head
    set m5 := storeBytes m4 (key * C + 8) (u32bytes nf) with hm5
    have e6 : Ropes.writeU32 ⟨⟨m4, N, C⟩, nf + chunksNeeded (C - 4)
        (data.length - (C - 12))⟩ key 2 nf = some ⟨⟨m5, N, C⟩,
        nf + chunksNeeded (C - 4) (data.length - (C - 12))⟩ := by
      simp only [Ropes.writeU32]
      rw [write_u32_w2 (by omega)]
      rfl
    have g0 : Chunked.be32 ⟨m5, N, C⟩ (key * C) = (v + 1) % 2 ^ 32 := by
      rw [← f0]
      apply be32_congr
      intro x hx1 hx2
      rw [hm5, storeBytes_lt (by omega)]
    have g1 : Chunked.be32 ⟨m5, N, C⟩ (key * C + 4) = data.length := by
      rw [← f1]
      apply be32_congr
      intro x hx1 hx2
      rw [hm5, storeBytes_lt (by omega)]
    have g2 : Chunked.be32 ⟨m5, N, C⟩ (key * C + 8) = nf := by
      rw [hm5, be32_store, hmodnf]
    have gpay : (List.range (C - 12)).map
        (fun i => Chunked.byteAt ⟨m5, N, C⟩ (key * C + 12 + i)) = data.take (C - 12) := by
      have hstep : (List.range (C - 12)).map
            (fun i => Chunked.byteAt ⟨m5, N, C⟩ (key * C + 12 + i)) =
          (List.range (C - 12)).map
            (fun i => Chunked.byteAt ⟨m4, N, C⟩ (key * C + 12 + i)) := by
        apply byteRange_congr
        intro x hx1 hx2
        rw [hm5, storeBytes_ge (by simp [u32bytes]; omega)]
      exact hstep.trans fpay
    have gchain : Chain ⟨m5, N, C⟩ nf nf (data.drop (C - 12)) 4 0 := by
      apply Chain.congr (m := m4)
      · intro a ha
        rw [hm5, storeBytes_ge (by simp [u32bytes]; omega)]
      · exact chain4
    refine ⟨m5, ?_, ?_, ?_, ?_, ?_, ?_, ?_, ?_⟩
    · simp only [Ropes.insert_at, e1, e2, e3, e4, show ((4 : Nat) * 3) = 12 from rfl, e5,
        if_pos hov, ec, Option.map_some', hmodnf, if_pos hptr, e6]
    · rw [read_u32_w0 (by omega), g0]
    · rw [read_u32_w1 (by omega), g1]
    · rw [read_u32_w2 (by omega), g2]
    · simp only [Ropes.get, read_u32_w1 (show key * C + 8 ≤ N by omega), g1,
        show ((4 : Nat) * 3) = 12 from rfl]
      refine @getGo_spec _ N C key data key 12 2 ?_ (data.length + 1) (by omega)
      refine Chain.cons key 12 2 nf data (le_refl key)
        (by simp only [Chunked.mk_chunkSize]; omega)
        (by simp only [Chunked.mk_chunkSize]; omega)
        (by simp only [Chunked.mk_chunkSize, Chunked.mk_byteLength]; omega)
        ?_ ?_ ?_
      · try simp only [Chunked.mk_chunkSize]
        exact gpay
      · try simp only [Chunked.mk_chunkSize]
        rw [read_u32_w2 (by omega), g2]
      · try simp only [Chunked.mk_chunkSize]
        exact Chain.mono (by omega) gchain
    · intro a ha
      rw [hm5, storeBytes_lt (by omega)]
      exact flow a ha
    · intro a ha1 ha2
      rw [hm5, storeBytes_ge (by simp [u32bytes]; omega)]
      exact fmid a ha1 ha2
    · intro a ha
      rw [hm5, storeBytes_ge (by simp [u32bytes]; omega)]
      exact fhigh a ha

/-- On an attached slab, an `Ok` result of `pull` always carries a value:
either the cache hit (so the entry exists), or the decoded value was just
inserted into the cache. -/
theorem pull_attached_ok {α : Type} (cd : Codec α) (s : SharedSlab α) (key : Nat) (r : Ropes)
    (hr : s.ropes = some r) {s2 : SharedSlab α} {o : Option α}
    (h : SharedSlab.pull cd s key = some (.ok (s2, o))) : o.isSome := by
  simp only [SharedSlab.pull, hr] at h
  split at h
  · exact absurd h (by simp)
  · rename_i ver hver
    split at h
    · rename_i hsv
      have h3 := Except.ok.inj (Option.some.inj h)
      have h4 := congrArg Prod.snd h3
      simp only at h4
      cases hc : s.cache key with
      | none => rw [hc] at hsv; simp [SharedSlab.same_ver] at hsv
      | some e =>
        rw [hc] at h4
        rw [← h4]
        simp
    · split at h
      · exact absurd h (by simp)
      · rename_i bs hbs
        split at h
        · exact absurd h (by simp)
        · rename_i val hval
          have h3 := Except.ok.inj (Option.some.inj h)
          have h4 := congrArg Prod.snd h3
          simp only [cacheInsert, if_pos rfl] at h4
          rw [← h4]
          simp

/-- When the stored payload for a key fails to decode on an attached slab
(after a version mismatch forces a reload), `pull` produces `InvalidData`
and `get`/`get_mut` panic on the unwrap. -/
theorem pull_decode_fails {α : Type} (cd : Codec α) (s : SharedSlab α) (key : Nat)
    (r : Ropes) (v : Nat) (bs : List Nat)
    (hr : s.ropes = some r)
    (hv : r.ver_peek key = some v)
    (hmiss : SharedSlab.same_ver (s.cache key) v = false)
    (hget : r.get key = some bs)
    (hdec : cd.dec bs = none) :
    SharedSlab.pull cd s key = some (.error .InvalidData) ∧
    SharedSlab.get cd s key = none ∧
    SharedSlab.get_mut cd s key = none := by
  have hpull : SharedSlab.pull cd s key = some (.error .InvalidData) := by
    simp only [SharedSlab.pull, hr, hv, hmiss, hget, hdec]
    simp
  exact ⟨hpull, by simp only [SharedSlab.get, hpull], by simp only [SharedSlab.get_mut, hpull]⟩

/-- Claim C3 (amended): when the stored payload for a key fails to decode on
an attached slab (version mismatch forces a reload), `pull` produces the
`InvalidData` error, but `get` and `get_mut` unwrap that `Result` and
terminate abnormally (modelled `none`) instead of propagating it; the stale
cached entry is not returned. -/
theorem C3_invalid_data_panics {α : Type} (cd : Codec α) (s : SharedSlab α) (key : Nat)
    (r : Ropes) (v : Nat) (bs : List Nat)
    (hr : s.ropes = some r)
    (hv : r.ver_peek key = some v)
    (hmiss : SharedSlab.same_ver (s.cache key) v = false)
    (hget : r.get key = some bs)
    (hdec : cd.dec bs = none) :
    SharedSlab.pull cd s key = some (.error .InvalidData) ∧
    SharedSlab.get cd s key = none ∧
    SharedSlab.get_mut cd s key = none :=
  pull_decode_fails cd s key r v bs hr hv hmiss hget hdec

/-- All-zero byte buffer. -/
def zeroMem : Nat → Nat := fun _ => 0

/-- Concrete codec standing in for a CBOR instance over `Nat`: a value
encodes to a single byte, and only single-byte payloads decode (in
particular the empty payload fails to decode, as with CBOR). -/
def natCodec : Codec Nat :=
  ⟨fun n => some [n % 256],
   fun bs => match bs with
     | [b] => some b
     | _ => none⟩

/-- Attached slab holding a stale cache entry for key 0 (cached version 5,
buffer version 0, stored payload empty hence undecodable). -/
def c3slab : SharedSlab Nat :=
  ⟨cacheInsert (fun _ => none) 0 ⟨5, 42⟩, some (Ropes.new ⟨zeroMem, 1024, 1024⟩), 0⟩

/-- Claim C3 counterexample: the claim says `get`/`get_mut` propagate
`InvalidData` to the caller and do not terminate abnormally; on this state
`pull` does produce `InvalidData`, but `get` and `get_mut` `unwrap` it and
panic (modelled `none`) — the error is not propagated. -/
theorem C3_counterexample :
    SharedSlab.pull natCodec c3slab 0 = some (.error FsError.InvalidData) ∧
    SharedSlab.get natCodec c3slab 0 = none ∧
    SharedSlab.get_mut natCodec c3slab 0 = none := by
  refine ⟨?_, ?_, ?_⟩ <;> rfl

/-- Claim C3 witness: the amended theorem applied to the concrete state. -/
theorem C3_witness :
    SharedSlab.pull natCodec c3slab 0 = some (.error FsError.InvalidData) ∧
    SharedSlab.get natCodec c3slab 0 = none ∧
    SharedSlab.get_mut natCodec c3slab 0 = none :=
  C3_invalid_data_panics natCodec c3slab 0 (Ropes.new ⟨zeroMem, 1024, 1024⟩) 0 []
    rfl rfl rfl rfl rfl

/-- Claim C4: on an attached slab, `get` never returns the value `None`:
every `Ok` outcome of `pull` carries a cached value, and for a never-written
key (version 0, empty payload) with no cache entry, the pull decodes the
empty payload, fails, and `get` panics on the unwrap (modelled `none`)
rather than returning `None`. -/
theorem C4_get_never_none_when_attached {α : Type} (cd : Codec α) :
    (∀ (s : SharedSlab α) (key : Nat) (r : Ropes), s.ropes = some r →
      ∀ p, SharedSlab.get cd s key = some p → p.2 ≠ none) ∧
    (∀ (s : SharedSlab α) (key : Nat) (r : Ropes), s.ropes = some r →
      r.ver_peek key = some 0 → s.cache key = none →
      r.storage.read_u32 key 1 = some 0 → cd.dec [] = none →
      SharedSlab.pull cd s key = some (.error .InvalidData) ∧
      SharedSlab.get cd s key = none) := by
  constructor
  · intro s key r hr p hp
    simp only [SharedSlab.get] at hp
    split at hp
    · rename_i q hq
      have hpq : p = q := (Option.some.inj hp).symm
      have := @pull_attached_ok _ cd s key r hr q.1 q.2 (by rw [hq])
      rw [hpq]
      intro hcon
      rw [hcon] at this
      simp at this
    · exact absurd hp (by simp)
    · exact absurd hp (by simp)
  · intro s key r hr hv hc hlen hdec
    have hmiss : SharedSlab.same_ver (s.cache key) 0 = false := by
      rw [hc]
      rfl
    have hget : r.get key = some [] := by
      simp only [Ropes.get, hlen, Ropes.getGo]
      rfl
    obtain ⟨hp, hg, _⟩ := pull_decode_fails cd s key r 0 [] hr hv hmiss hget hdec
    exact ⟨hp, hg⟩

/-- Attached slab with an empty cache over a zeroed one-chunk buffer. -/
def c4slab : SharedSlab Nat :=
  ⟨fun _ => none, some (Ropes.new ⟨zeroMem, 1024, 1024⟩), 0⟩

/-- Claim C4 witness: both parts of the theorem at the concrete state. -/
theorem C4_witness :
    (SharedSlab.pull natCodec c4slab 0 = some (.error FsError.InvalidData) ∧
      SharedSlab.get natCodec c4slab 0 = none) ∧
    (∀ p, SharedSlab.get natCodec c4slab 0 = some p → p.2 ≠ none) :=
  ⟨(C4_get_never_none_when_attached natCodec).2 c4slab 0
      (Ropes.new ⟨zeroMem, 1024, 1024⟩) rfl rfl rfl rfl rfl,
   (C4_get_never_none_when_attached natCodec).1 c4slab 0
      (Ropes.new ⟨zeroMem, 1024, 1024⟩) rfl⟩

/-- Claim C5 (amended): `attach` installs a rope with chunk size 1024 over
the buffer and then: when the root version is non-zero, nothing is written
and the existing state is observed; when the root version is zero and the
cache holds a root value, that value is flushed to chunk 0; but when the
root version is zero and the cache holds no root, `attach` panics on the
`unwrap` of the missing cache entry (modelled `none`) instead of completing. -/
theorem C5_attach_cases {α : Type} (cd : Codec α) (s : SharedSlab α) (mem : Nat → Nat)
    (byte_len : Nat) :
    (∀ v, Chunked.read_u32 ⟨mem, byte_len, 1024⟩ 0 0 = some v → v ≠ 0 →
      SharedSlab.attach cd s mem byte_len =
        some (.ok { s with ropes := some (Ropes.new ⟨mem, byte_len, 1024⟩) })) ∧
    (∀ e bytes, Chunked.read_u32 ⟨mem, byte_len, 1024⟩ 0 0 = some 0 →
      s.cache 0 = some e → cd.enc e.val = some bytes →
      (∀ b ∈ bytes, b < 256) → bytes.length ≤ 1012 → 1024 ≤ byte_len →
      ∃ m', SharedSlab.attach cd s mem byte_len =
          some (.ok { s with ropes := some ⟨⟨m', byte_len, 1024⟩, 1⟩ }) ∧
        Chunked.read_u32 ⟨m', byte_len, 1024⟩ 0 0 = some 1 ∧
        Chunked.read_u32 ⟨m', byte_len, 1024⟩ 0 1 = some bytes.length ∧
        Ropes.get ⟨⟨m', byte_len, 1024⟩, 1⟩ 0 = some bytes) ∧
    (Chunked.read_u32 ⟨mem, byte_len, 1024⟩ 0 0 = some 0 → s.cache 0 = none →
      SharedSlab.attach cd s mem byte_len = none) := by
  refine ⟨?_, ?_, ?_⟩
  · intro v hv hv0
    simp only [SharedSlab.attach, Ropes.ver_peek, Ropes.new, Ropes.mk_storage, hv,
      if_neg hv0]
  · intro e bytes hv hc henc hbytes hblen hN
    have hbe : Chunked.be32 ⟨mem, byte_len, 1024⟩ (0 * 1024) = 0 := by
      have := @read_u32_w0 mem byte_len 1024 0 (by omega)
      rw [this] at hv
      have h2 := Option.some.inj hv
      simpa using h2
    obtain ⟨m', g1, g2, g3, g4, g5, g6, g7⟩ := insert_at_fit (N := byte_len) (C := 1024)
      mem 1 0 bytes (by omega) (by omega) hbytes (by omega) (by omega)
    rw [hbe] at g1 g2
    refine ⟨m', ?_, ?_, g3, g5⟩
    · simp only [SharedSlab.attach, Ropes.ver_peek, Ropes.new, Ropes.mk_storage, hv,
        if_pos rfl, hc, SharedSlab.push, henc, g1]
      simp
    · simpa using g2
  · intro hv hc
    simp only [SharedSlab.attach, Ropes.ver_peek, Ropes.new, Ropes.mk_storage, hv,
      if_pos rfl, hc]
    simp

/-- Claim C5 counterexample: a detached slab with an empty cache attached
over a zeroed buffer.  The claim says `attach` completes without failure
when the rope's root version is 0 and the cache holds no root; the code
calls `self._cache().get(&0).unwrap()` and panics (modelled `none`). -/
theorem C5_counterexample :
    SharedSlab.attach natCodec (SharedSlab.new Nat) zeroMem 1024 = none := rfl

/-- Slab caching a root value (version 0, value 42), detached. -/
def c5slab : SharedSlab Nat := ⟨cacheInsert (fun _ => none) 0 ⟨0, 42⟩, none, 0⟩

/-- Buffer whose chunk 0 has version word 1. -/
def c5memOne : Nat → Nat := fun a => if a = 3 then 1 else 0

/-- Claim C5 witness: the three cases of the amended theorem at concrete
inputs. -/
theorem C5_witness :
    SharedSlab.attach natCodec (SharedSlab.new Nat) zeroMem 1024 = none ∧
    (∃ m', SharedSlab.attach natCodec c5slab zeroMem 1024 =
        some (.ok { c5slab with ropes := some ⟨⟨m', 1024, 1024⟩, 1⟩ }) ∧
      Chunked.read_u32 ⟨m', 1024, 1024⟩ 0 0 = some 1 ∧
      Chunked.read_u32 ⟨m', 1024, 1024⟩ 0 1 = some ([42] : List Nat).length ∧
      Ropes.get ⟨⟨m', 1024, 1024⟩, 1⟩ 0 = some [42]) ∧
    SharedSlab.attach natCodec c5slab c5memOne 1024 =
      some (.ok { c5slab with ropes := some (Ropes.new ⟨c5memOne, 1024, 1024⟩) }) :=
  ⟨(C5_attach_cases natCodec (SharedSlab.new Nat) zeroMem 1024).2.2 rfl rfl,
   (C5_attach_cases natCodec c5slab zeroMem 1024).2.1 ⟨0, 42⟩ [42] rfl rfl rfl
     (by decide) (by norm_num) (by norm_num),
   (C5_attach_cases natCodec c5slab c5memOne 1024).1 1 rfl (by norm_num)⟩

/-- Claim C6 (amended): `remove` on an attached slab with a cached entry
returns the cached value, drops the cache entry, and zeroes word 0 of the
chunk (so `version_of(key)` reads 0); on a detached slab `remove` panics on
`self._ropes().unwrap()` (modelled `none`) instead of returning the cached
value. -/
theorem C6_remove_cases {α : Type} (s : SharedSlab α) (key : Nat) :
    (s.ropes = none → SharedSlab.remove s key = none) ∧
    (∀ (m : Nat → Nat) (N C nf : Nat) (e : VEntry α),
      s.ropes = some ⟨⟨m, N, C⟩, nf⟩ → s.cache key = some e → key * C + 4 ≤ N →
      SharedSlab.remove s key =
        some ({ s with
          ropes := some (Ropes.mk (Chunked.mk (storeBytes m (key * C) (u32bytes 0)) N C) nf),
          cache := cacheRemove s.cache key }, e.val) ∧
      Chunked.read_u32 ⟨storeBytes m (key * C) (u32bytes 0), N, C⟩ key 0 = some 0) := by
  constructor
  · intro hr
    simp only [SharedSlab.remove, hr]
  · intro m N C nf e hr hc hb
    have hw : Ropes.remove ⟨⟨m, N, C⟩, nf⟩ key =
        some ⟨⟨storeBytes m (key * C) (u32bytes 0), N, C⟩, nf⟩ := by
      simp only [Ropes.remove, Ropes.mk_storage]
      rw [write_u32_w0 hb]
      rfl
    constructor
    · simp only [SharedSlab.remove, hr, hw, hc]
    · rw [read_u32_w0 hb, be32_store]
      norm_num

/-- Detached slab caching an entry for key 0. -/
def c6slab : SharedSlab Nat := ⟨cacheInsert (fun _ => none) 0 ⟨1, 7⟩, none, 1⟩

/-- The same cache attached over a zeroed one-chunk buffer. -/
def c6slabAtt : SharedSlab Nat :=
  ⟨cacheInsert (fun _ => none) 0 ⟨1, 7⟩, some (Ropes.new ⟨zeroMem, 1024, 1024⟩), 1⟩

/-- Claim C6 counterexample: the claim says a detached `remove` still
returns the cached value without failing; the code panics on
`self._ropes().unwrap()` (modelled `none`). -/
theorem C6_counterexample : SharedSlab.remove c6slab 0 = none := rfl

/-- Claim C6 witness: both cases of the amended theorem at concrete inputs. -/
theorem C6_witness :
    SharedSlab.remove c6slab 0 = none ∧
    (SharedSlab.remove c6slabAtt 0 =
        some ({ c6slabAtt with
          ropes := some (Ropes.mk (Chunked.mk (storeBytes zeroMem (0 * 1024) (u32bytes 0))
            1024 1024) 1),
          cache := cacheRemove c6slabAtt.cache 0 }, 7) ∧
      Chunked.read_u32 ⟨storeBytes zeroMem (0 * 1024) (u32bytes 0), 1024, 1024⟩ 0 0 =
        some 0) :=
  ⟨(C6_remove_cases c6slab 0).1 rfl,
   (C6_remove_cases c6slabAtt 0).2 zeroMem 1024 1024 1 ⟨1, 7⟩ rfl rfl (by norm_num)⟩

/-! Allocator claim theorems. -/

/-- Claim C8 (amended): `alloc` returns the lowest chunk index at or above
`next_free` whose version word is 0 and advances `next_free` past it; and it
never returns a key whose version word is non-zero — in particular a key
whose versions have not wrapped around `2 ^ 32` is never re-allocated. -/
theorem C8_alloc_lowest_vacant (r : Ropes) :
    (∀ (r2 : Ropes) (k : Nat), r.alloc = some (r2, k) →
      r.next_free ≤ k ∧ r.storage.read_u32 k 0 = some 0 ∧
      (∀ j, r.next_free ≤ j → j < k → ∃ v, r.storage.read_u32 j 0 = some v ∧ v ≠ 0) ∧
      r2 = ⟨r.storage, k + 1⟩) ∧
    (∀ (key v : Nat) (r2 : Ropes), r.storage.read_u32 key 0 = some v → v ≠ 0 →
      r.alloc ≠ some (r2, key)) := by
  constructor
  · intro r2 k h
    exact Ropes.alloc_spec h
  · intro key v r2 hv hv0 hcon
    obtain ⟨-, h2, -, -⟩ := Ropes.alloc_spec hcon
    rw [hv] at h2
    exact hv0 (Option.some.inj h2)

/-- Buffer of three 16-byte chunks where chunk 1 carries version 5. -/
def c8mem : Nat → Nat := fun a => if a = 19 then 5 else 0

/-- Claim C8 witness: on the concrete buffer, `alloc` skips the occupied
chunk 1 and returns chunk 2, advancing the cursor past it. -/
theorem C8_witness :
    ((Ropes.new ⟨c8mem, 48, 16⟩).alloc = some (⟨⟨c8mem, 48, 16⟩, 3⟩, 2) ∧
      (1 ≤ 2 ∧ Chunked.read_u32 ⟨c8mem, 48, 16⟩ 2 0 = some 0 ∧
        (∀ j, 1 ≤ j → j < 2 → ∃ v, Chunked.read_u32 ⟨c8mem, 48, 16⟩ j 0 = some v ∧ v ≠ 0) ∧
        (⟨⟨c8mem, 48, 16⟩, 3⟩ : Ropes) = ⟨⟨c8mem, 48, 16⟩, 2 + 1⟩)) ∧
    (Ropes.new ⟨c8mem, 48, 16⟩).alloc ≠ some (⟨⟨c8mem, 48, 16⟩, 3⟩, 1) :=
  ⟨⟨rfl, (C8_alloc_lowest_vacant (Ropes.new ⟨c8mem, 48, 16⟩)).1 ⟨⟨c8mem, 48, 16⟩, 3⟩ 2 rfl⟩,
   (C8_alloc_lowest_vacant (Ropes.new ⟨c8mem, 48, 16⟩)).2 1 5 ⟨⟨c8mem, 48, 16⟩, 3⟩ rfl
     (by norm_num)⟩

/-- Claim C9: when every readable chunk at or above the free cursor is
occupied, the allocator scan walks past the buffer's last chunk and the
out-of-range word read aborts the operation (the thrown `RangeError` is
modelled `none`): `alloc_peek` and `alloc` fail rather than silently
returning a key. -/
theorem C9_alloc_out_of_buffer (r : Ropes)
    (hocc : ∀ j v, r.next_free ≤ j → r.storage.read_u32 j 0 = some v → v ≠ 0) :
    r.alloc_peek = none ∧ r.alloc = none := by
  have hscan : ∀ fuel nf, r.next_free ≤ nf →
      allocScanGo r.storage fuel nf = none := by
    intro fuel
    induction fuel with
    | zero => intro nf hnf; simp [allocScanGo]
    | succ f ih =>
      intro nf hnf
      simp only [allocScanGo]
      split
      · rfl
      · rename_i v hr
        rw [if_neg (hocc nf v hnf hr)]
        exact ih (nf + 1) (by omega)
  have hpeek : r.alloc_peek = none := by
    simp only [Ropes.alloc_peek,
      hscan (r.storage.byteLength + 1) r.next_free (le_refl _)]
    rfl
  exact ⟨hpeek, by simp only [Ropes.alloc, hpeek]; rfl⟩

/-- Buffer of two 16-byte chunks, both with non-zero version words. -/
def c9mem : Nat → Nat := fun a => if a % 16 = 3 then 1 else 0

/-- Claim C9 witness: on a full concrete buffer the allocator fails. -/
theorem C9_witness :
    (Ropes.new ⟨c9mem, 32, 16⟩).alloc_peek = none ∧
    (Ropes.new ⟨c9mem, 32, 16⟩).alloc = none := by
  refine C9_alloc_out_of_buffer (Ropes.new ⟨c9mem, 32, 16⟩) ?_
  intro j v hj hr
  simp only [Ropes.new, Ropes.mk_next_free] at hj
  simp only [Ropes.new, Ropes.mk_storage, Chunked.read_u32, Chunked.address,
    Chunked.mk_byteLength, Chunked.mk_chunkSize] at hr
  split at hr
  · rename_i hb
    have hj2 : j = 1 := by
      by_contra hne
      have h2 : 2 ≤ j := by omega
      have h3 : 2 * 16 ≤ j * 16 := Nat.mul_le_mul_right 16 h2
      omega
    subst hj2
    have : v = 1 := by
      have h2 := (Option.some.inj hr).symm
      rw [h2]
      rfl
    omega
  · exact absurd hr (by simp)

/-- Claim C10: the free cursor starts at 1 (`Ropes::new`), `alloc_peek` and
`alloc` only move it forward and return keys at or above it — hence never
chunk 0 — and `insert_at` never moves it backwards. -/
theorem C10_alloc_never_returns_zero :
    (∀ st : Chunked, (Ropes.new st).next_free = 1) ∧
    (∀ (r r2 : Ropes) (k : Nat), 1 ≤ r.next_free → r.alloc_peek = some (r2, k) →
      1 ≤ k ∧ r.next_free ≤ k ∧ r2.next_free = k) ∧
    (∀ (r r2 : Ropes) (k : Nat), 1 ≤ r.next_free → r.alloc = some (r2, k) →
      1 ≤ k ∧ r.next_free ≤ k ∧ r2.next_free = k + 1) ∧
    (∀ (r r2 : Ropes) (key ver : Nat) (data : List Nat),
      r.insert_at key data = some (r2, ver) → r.next_free ≤ r2.next_free) := by
  refine ⟨fun st => rfl, ?_, ?_, ?_⟩
  · intro r r2 k h1 h
    obtain ⟨g1, g2, g3, g4⟩ := Ropes.alloc_peek_spec h
    rw [g4]
    exact ⟨by omega, g1, rfl⟩
  · intro r r2 k h1 h
    obtain ⟨g1, g2, g3, g4⟩ := Ropes.alloc_spec h
    rw [g4]
    exact ⟨by omega, g1, rfl⟩
  · intro r r2 key ver data h
    exact Ropes.insert_at_next_free_mono h

/-- Claim C10 witness: the parts of the theorem at concrete inputs. -/
theorem C10_witness :
    (Ropes.new ⟨zeroMem, 32, 16⟩).next_free = 1 ∧
    (1 ≤ 1 ∧ 1 ≤ 1 ∧ (⟨⟨zeroMem, 32, 16⟩, 1⟩ : Ropes).next_free = 1) ∧
    (1 ≤ 1 ∧ 1 ≤ 1 ∧ (⟨⟨zeroMem, 32, 16⟩, 2⟩ : Ropes).next_free = 1 + 1) ∧
    (1 : Nat) ≤ 1 :=
  ⟨C10_alloc_never_returns_zero.1 ⟨zeroMem, 32, 16⟩,
   C10_alloc_never_returns_zero.2.1 (Ropes.new ⟨zeroMem, 32, 16⟩) ⟨⟨zeroMem, 32, 16⟩, 1⟩ 1
     (le_refl 1) rfl,
   C10_alloc_never_returns_zero.2.2.1 (Ropes.new ⟨zeroMem, 32, 16⟩) ⟨⟨zeroMem, 32, 16⟩, 2⟩ 1
     (le_refl 1) rfl,
   by norm_num⟩

/-! Version arithmetic of `insert_at` and iterated inserts. -/

/-- A successful `insert_at` returns `(v + 1) % 2 ^ 32` where `v` is the
version word it read (the `u32` increment wraps). -/
theorem Ropes.insert_at_ver {r r2 : Ropes} {key ver : Nat} {data : List Nat} {v : Nat}
    (h : r.insert_at key data = some (r2, ver)) (hv : r.storage.read_u32 key 0 = some v) :
    ver = (v + 1) % 2 ^ 32 := by
  simp only [Ropes.insert_at] at h
  split at h
  · exact absurd h (by simp)
  · rename_i v2 hread
    have hv2 : v2 = v := by
      rw [hread] at hv
      exact Option.some.inj hv
    subst hv2
    split at h
    · exact absurd h (by simp)
    · split at h
      · exact absurd h (by simp)
      · split at h
        · exact absurd h (by simp)
        · split at h
          · exact absurd h (by simp)
          · split at h
            · exact absurd h (by simp)
            · split at h
              · exact absurd h (by simp)
              · rename_i r3 hw
                have h2 := congrArg Prod.snd (Option.some.inj h)
                exact h2.symm

/-- n-fold empty-payload insert at a fixed key (chunk size 16 in the
iteration lemma below, small enough that the head always fits). -/
def iterIns (r : Ropes) (key : Nat) : Nat → Option Ropes
  | 0 => some r
  | n + 1 => (iterIns r key n).bind (fun s => (s.insert_at key []).map Prod.fst)

theorem iterIns_ver {N : Nat} (key : Nat) (hkey : (key + 1) * 16 ≤ N) :
    ∀ n, ∃ m', iterIns (Ropes.new ⟨zeroMem, N, 16⟩) key n = some ⟨⟨m', N, 16⟩, 1⟩ ∧
      Chunked.be32 ⟨m', N, 16⟩ (key * 16) = n % 2 ^ 32 := by
  have hb : key * 16 + 4 ≤ N := by
    have : (key + 1) * 16 = key * 16 + 16 := by ring
    omega
  intro n
  induction n with
  | zero =>
    refine ⟨zeroMem, rfl, ?_⟩
    simp [Chunked.be32, Chunked.byteAt, zeroMem]
  | succ n ih =>
    obtain ⟨m', h1, h2⟩ := ih
    obtain ⟨m2, g1, g2, g3, g4, g5, g6, g7⟩ := insert_at_fit (N := N) (C := 16) m' 1 key []
      (by norm_num) hkey (by simp) (by norm_num) (by norm_num)
    refine ⟨m2, ?_, ?_⟩
    · simp only [iterIns, h1]
      simp [g1]
    · have hr := @read_u32_w0 m2 N 16 key hb
      have heq := Option.some.inj (hr.symm.trans g2)
      rw [heq, h2]
      omega

/-- Version observed at word 0 of the head chunk after `n` successive
successful empty inserts at key 0 on a one-chunk buffer. -/
def c1verSeq (n : Nat) : Option Nat :=
  (iterIns (Ropes.new ⟨zeroMem, 16, 16⟩) 0 n).bind (fun s => s.ver_peek 0)

/-- Claim C1 counterexample: after `2 ^ 32 - 1` successful inserts at key 0
the observed version is `2 ^ 32 - 1`, but one more successful insert wraps
the `u32` counter and the observed version drops to 0 — the sequence of
versions observed after successive successful `insert_at` calls is not
strictly increasing. -/
theorem C1_counterexample :
    c1verSeq (2 ^ 32 - 1) = some (2 ^ 32 - 1) ∧
    c1verSeq (2 ^ 32) = some 0 ∧
    ¬ (2 ^ 32 - 1 : Nat) < 0 := by
  obtain ⟨m1, h1, h2⟩ := iterIns_ver (N := 16) 0 (by norm_num) (2 ^ 32 - 1)
  obtain ⟨m2, g1, g2⟩ := iterIns_ver (N := 16) 0 (by norm_num) (2 ^ 32)
  refine ⟨?_, ?_, by omega⟩
  · simp only [c1verSeq, h1]
    simp only [Option.some_bind, Ropes.ver_peek, Ropes.mk_storage]
    rw [read_u32_w0 (by norm_num), h2]
    norm_num
  · simp only [c1verSeq, g1]
    simp only [Option.some_bind, Ropes.ver_peek, Ropes.mk_storage]
    rw [read_u32_w0 (by norm_num), g2]
    norm_num

/-- Claim C1 (amended): a successful `insert_at` returns `(v + 1) mod 2^32`
where `v` is the version it read at word 0, and — provided the count of
writes stays below `2 ^ 32`, so `v + 1 < 2 ^ 32` — the returned version is
strictly greater than `v`; in the head-fits case the same value is also what
word 0 reads back afterwards. -/
theorem C1_version_increment {N C : Nat} (m : Nat → Nat) (nf key : Nat) (data : List Nat) :
    (∀ (r2 : Ropes) (ver v : Nat),
      Ropes.insert_at ⟨⟨m, N, C⟩, nf⟩ key data = some (r2, ver) →
      Ropes.ver_peek ⟨⟨m, N, C⟩, nf⟩ key = some v →
      ver = (v + 1) % 2 ^ 32 ∧ (v + 1 < 2 ^ 32 → v < ver)) ∧
    (13 ≤ C → (key + 1) * C ≤ N → (∀ b ∈ data, b < 256) → data.length < 2 ^ 32 →
      data.length ≤ C - 12 →
      ∃ m', Ropes.insert_at ⟨⟨m, N, C⟩, nf⟩ key data =
          some (⟨⟨m', N, C⟩, nf⟩, (Chunked.be32 ⟨m, N, C⟩ (key * C) + 1) % 2 ^ 32) ∧
        Ropes.ver_peek ⟨⟨m', N, C⟩, nf⟩ key =
          some ((Chunked.be32 ⟨m, N, C⟩ (key * C) + 1) % 2 ^ 32)) := by
  constructor
  · intro r2 ver v h hv
    have hver := Ropes.insert_at_ver h hv
    refine ⟨hver, fun hlt => ?_⟩
    rw [hver, Nat.mod_eq_of_lt hlt]
    omega
  · intro hC hkey hbytes hlen hfit
    obtain ⟨m', g1, g2, g3, g4, g5, g6, g7⟩ := insert_at_fit m nf key data hC hkey
      hbytes hlen hfit
    exact ⟨m', g1, g2⟩

/-- Claim C1 witness: a concrete insert at key 0 on a zeroed buffer returns
version 1, strictly above the version 0 it read, and writes it to word 0. -/
theorem C1_witness :
    (∃ m', Ropes.insert_at ⟨⟨zeroMem, 16, 16⟩, 1⟩ 0 [9] =
        some (⟨⟨m', 16, 16⟩, 1⟩, (Chunked.be32 ⟨zeroMem, 16, 16⟩ (0 * 16) + 1) % 2 ^ 32) ∧
      Ropes.ver_peek ⟨⟨m', 16, 16⟩, 1⟩ 0 =
        some ((Chunked.be32 ⟨zeroMem, 16, 16⟩ (0 * 16) + 1) % 2 ^ 32)) ∧
    ((Chunked.be32 ⟨zeroMem, 16, 16⟩ (0 * 16) + 1) % 2 ^ 32 = (0 + 1) % 2 ^ 32 ∧
      (0 + 1 < 2 ^ 32 → 0 < (Chunked.be32 ⟨zeroMem, 16, 16⟩ (0 * 16) + 1) % 2 ^ 32)) := by
  have hpart2 := (C1_version_increment (N := 16) (C := 16) zeroMem 1 0 [9]).2
    (by norm_num) (by norm_num) (by decide) (by norm_num) (by norm_num)
  refine ⟨hpart2, ?_⟩
  obtain ⟨m', hins, hv⟩ := hpart2
  exact (C1_version_increment (N := 16) (C := 16) zeroMem 1 0 [9]).1 _ _ 0 hins rfl

/-- Allocation attempted after `2 ^ 32` successful inserts at the explicit
key 1 on a two-chunk buffer. -/
def c8allocAfter : Option Nat :=
  (iterIns (Ropes.new ⟨zeroMem, 32, 16⟩) 1 (2 ^ 32)).bind (fun s => s.alloc.map Prod.snd)

/-- Claim C8 counterexample: after a sequence of inserts at the explicit key
set `{1}` (namely `2 ^ 32` of them, wrapping the `u32` version word back to
zero), a subsequent `alloc` returns key 1, a member of that set. -/
theorem C8_counterexample : c8allocAfter = some 1 := by
  obtain ⟨m1, h1, h2⟩ := iterIns_ver (N := 32) 1 (by norm_num) (2 ^ 32)
  simp only [c8allocAfter, h1, Option.some_bind]
  have hz : Chunked.read_u32 ⟨m1, 32, 16⟩ 1 0 = some 0 := by
    rw [read_u32_w0 (by norm_num), h2]
    norm_num
  have ha := Ropes.alloc_at_zero (r := ⟨⟨m1, 32, 16⟩, 1⟩) hz
  simp [ha]

/-! Claim C2: payload-length invariant and read-back. -/

/-- A 20-byte payload of sevens used in the C7 scenario: at chunk size 16 it
occupies the head chunk plus two continuation chunks. -/
def c7long : List Nat := List.replicate 20 7

/-- State after inserting the long payload at key 0 on a zeroed six-chunk
buffer (chunk size 16). -/
def c7r1 : Option Ropes :=
  (Ropes.insert_at ⟨⟨zeroMem, 96, 16⟩, 1⟩ 0 c7long).map Prod.fst

/-- State after then shrinking key 0 to the two-byte payload `[9, 9]`. -/
def c7r2 : Option Ropes :=
  c7r1.bind (fun r => (Ropes.insert_at r 0 [9, 9]).map Prod.fst)

/-- State after then regrowing key 0 with a 16-byte payload (head chunk plus
one continuation). -/
def c7r3 : Option Ropes :=
  c7r2.bind (fun r => (Ropes.insert_at r 0 (List.replicate 16 8)).map Prod.fst)

/-- Word 2 of chunk 0 (the head's next pointer) in an optional rope state. -/
def c7w2 (o : Option Ropes) : Option Nat :=
  o.bind (fun r => r.storage.read_u32 0 2)

/-- Claim C7 counterexample: after the long insert the head's next pointer
is 1 (the first continuation chunk); the shrinking insert overwrites it with
0 — it does not "remain unchanged" — and the subsequent larger insert reads
that 0 and spills into the fresh chunk 3 instead of re-consuming the
orphaned chunks 1 and 2 through the old pointer. -/
theorem C7_counterexample :
    c7w2 c7r1 = some 1 ∧ c7w2 c7r2 = some 0 ∧ c7w2 c7r3 = some 3 :=
  ⟨rfl, rfl, rfl⟩

/-- Claim C7 (amended): rewriting a shorter value that fits the head chunk
over a longer multi-chunk one does not leave the next pointer unchanged:
`insert_at` overwrites word 2 with 0, the shorter recorded length bounds
traversal so `get` returns only the short payload, and a subsequent larger
`insert_at` does not re-consume the orphaned continuation chunks — reading
word 2 as 0 it allocates fresh chunks at the free cursor, so word 2 ends up
pointing at the cursor's old position. -/
theorem C7_shrink_orphans {N C : Nat} (m : Nat → Nat) (nf key : Nat)
    (short long2 : List Nat)
    (hC : 13 ≤ C) (hkey : (key + 1) * C ≤ N) (hknf : key < nf)
    (hsb : ∀ b ∈ short, b < 256) (hsl : short.length < 2 ^ 32)
    (hfit : short.length ≤ C - 12)
    (hlb : ∀ b ∈ long2, b < 256) (hll : long2.length < 2 ^ 32)
    (hov : C - 12 < long2.length)
    (hz : ∀ j, j < chunksNeeded (C - 4) (long2.length - (C - 12)) →
      Chunked.read_u32 ⟨m, N, C⟩ (nf + j) 0 = some 0)
    (hbound : (nf + chunksNeeded (C - 4) (long2.length - (C - 12))) * C ≤ N)
    (hcast : nf + chunksNeeded (C - 4) (long2.length - (C - 12)) < 2 ^ 32) :
    ∃ m', Ropes.insert_at ⟨⟨m, N, C⟩, nf⟩ key short =
        some (⟨⟨m', N, C⟩, nf⟩, (Chunked.be32 ⟨m, N, C⟩ (key * C) + 1) % 2 ^ 32) ∧
      Chunked.read_u32 ⟨m', N, C⟩ key 2 = some 0 ∧
      Ropes.get ⟨⟨m', N, C⟩, nf⟩ key = some short ∧
      ∃ m'', Ropes.insert_at ⟨⟨m', N, C⟩, nf⟩ key long2 =
          some (⟨⟨m'', N, C⟩, nf + chunksNeeded (C - 4) (long2.length - (C - 12))⟩,
            (Chunked.be32 ⟨m', N, C⟩ (key * C) + 1) % 2 ^ 32) ∧
        Chunked.read_u32 ⟨m'', N, C⟩ key 2 = some nf ∧
        Ropes.get ⟨⟨m'', N, C⟩, nf + chunksNeeded (C - 4) (long2.length - (C - 12))⟩ key =
          some long2 := by
  obtain ⟨m', g1, g2, g3, g4, g5, g6, g7⟩ := insert_at_fit m nf key short hC hkey hsb hsl hfit
  have hcc : (key + 1) * C = key * C + C := by ring
  have hb12 : key * C + 12 ≤ N := by omega
  have hn2 : Chunked.be32 ⟨m', N, C⟩ (key * C + 8) = 0 := by
    rw [read_u32_w2 hb12] at g4
    exact Option.some.inj g4
  have hz' : ∀ j, j < chunksNeeded (C - 4) (long2.length - (C - 12)) →
      Chunked.read_u32 ⟨m', N, C⟩ (nf + j) 0 = some 0 := by
    intro j hj
    have hcongr : Chunked.read_u32 ⟨m', N, C⟩ (nf + j) 0 =
        Chunked.read_u32 ⟨m, N, C⟩ (nf + j) 0 := by
      apply read_u32_congr
      intro x hx1 hx2
      apply g7
      have h1 : (key + 1) * C ≤ nf * C := Nat.mul_le_mul_right C (by omega)
      have h2 : nf * C ≤ (nf + j) * C := Nat.mul_le_mul_right C (by omega)
      omega
    rw [hcongr]
    exact hz j hj
  obtain ⟨m2, k1, k2, k3, k4, k5, k6, k7, k8⟩ := insert_at_overflow m' nf key long2 hC hkey
    hlb hll hov hknf (by omega) hz' hbound hcast
  exact ⟨m', g1, g4, g5, m2, k1, k4, k5⟩

/-- Claim C7 witness: the amended theorem at the concrete scenario — chunk
size 16, six chunks, key 0, shrink to `[9, 9]` then regrow with a 20-byte
payload spilling into two fresh chunks. -/
theorem C7_witness :
    ((∀ b ∈ [9, 9], (b : Nat) < 256) ∧ (16 : Nat) - 12 < c7long.length) ∧
    ∃ m', Ropes.insert_at ⟨⟨zeroMem, 96, 16⟩, 1⟩ 0 [9, 9] =
        some (⟨⟨m', 96, 16⟩, 1⟩, (Chunked.be32 ⟨zeroMem, 96, 16⟩ (0 * 16) + 1) % 2 ^ 32) ∧
      Chunked.read_u32 ⟨m', 96, 16⟩ 0 2 = some 0 ∧
      Ropes.get ⟨⟨m', 96, 16⟩, 1⟩ 0 = some [9, 9] ∧
      ∃ m'', Ropes.insert_at ⟨⟨m', 96, 16⟩, 1⟩ 0 c7long =
          some (⟨⟨m'', 96, 16⟩, 1 + chunksNeeded (16 - 4) (c7long.length - (16 - 12))⟩,
            (Chunked.be32 ⟨m', 96, 16⟩ (0 * 16) + 1) % 2 ^ 32) ∧
        Chunked.read_u32 ⟨m'', 96, 16⟩ 0 2 = some 1 ∧
        Ropes.get ⟨⟨m'', 96, 16⟩, 1 + chunksNeeded (16 - 4) (c7long.length - (16 - 12))⟩ 0 =
          some c7long :=
  ⟨⟨by decide, by decide⟩,
   C7_shrink_orphans zeroMem 1 0 [9, 9] c7long (by norm_num) (by norm_num) (by norm_num)
     (by decide) (by decide) (by decide) (by decide) (by decide) (by decide) (by decide)
     (by decide) (by decide)⟩
